import Mathlib

/-!
Verification of the lexicon-based sentiment engine (`sentiment.py`, `utils.py`)
of the TikTok-Sentiment-Analyzer repository, shallowly embedded in Lean 4.
Strings are modelled as `String`/`List Char` over the ASCII fragment the
engine's regular expressions act on, numeric weights as `ℚ`, and Python's
3-argument `round` (banker's rounding) as `pyRound`.
-/

namespace TikTokSA

/-- Python whitespace characters (`\s`, `str.split()`), ASCII fragment:
space (32), tab (9), newline (10), carriage return (13), vertical tab (11),
form feed (12). -/
def pyIsSpace (c : Char) : Bool :=
  c.toNat = 32 || c.toNat = 9 || c.toNat = 10 || c.toNat = 13 ||
    c.toNat = 11 || c.toNat = 12

/-- Python word characters (`\w`), ASCII fragment: uppercase letters
(65-90), lowercase letters (97-122), digits (48-57), underscore (95). -/
def isWordChar (c : Char) : Bool :=
  (65 ≤ c.toNat && c.toNat ≤ 90) || (97 ≤ c.toNat && c.toNat ≤ 122) ||
    (48 ≤ c.toNat && c.toNat ≤ 57) || c.toNat = 95

/-- ASCII digits (`\d`). -/
def isDigitChar (c : Char) : Bool :=
  48 ≤ c.toNat && c.toNat ≤ 57

/-- ASCII lowercasing, as performed by Python `str.lower()` on ASCII text. -/
def pyLower (c : Char) : Char :=
  if 65 ≤ c.toNat ∧ c.toNat ≤ 90 then Char.ofNat (c.toNat + 32) else c

/-- Whitespace splitting as done by Python `str.split()` (used both by
`tokenize` and by `remove_extra_whitespace`): splits on runs of whitespace,
dropping empty pieces.  Structural recursion via a fuel argument so that the
function evaluates inside the kernel. -/
def splitWsF : Nat → List Char → List (List Char)
  | 0, _ => []
  | _ + 1, [] => []
  | f + 1, c :: cs =>
    if pyIsSpace c then splitWsF f cs
    else (c :: cs.takeWhile (fun d => !pyIsSpace d)) ::
      splitWsF f (cs.dropWhile (fun d => !pyIsSpace d))

/-- Python `str.split()` on a character list. -/
def splitWs (l : List Char) : List (List Char) := splitWsF l.length l

/-- Python `' '.join(...)` on character lists. -/
def joinSpace : List (List Char) → List Char
  | [] => []
  | [t] => t
  | t :: ts => t ++ ' ' :: joinSpace ts

/-- Python `str.strip()`: drop leading and trailing whitespace. -/
def pyStrip (l : List Char) : List Char :=
  ((l.dropWhile pyIsSpace).reverse.dropWhile pyIsSpace).reverse

/-- Strip a literal pattern from the front of a character list
(`none` when the list does not start with the pattern). -/
def dropPat : List Char → List Char → Option (List Char)
  | [], l => some l
  | _ :: _, [] => none
  | p :: ps, c :: cs => if c = p then dropPat ps cs else none

/-- Does a URL match of `https?://\S+|www\.\S+` start at this position?
The regex alternative `https?` is deterministic here because `s?` is
immediately followed by the literal `://`. -/
def isUrlStart (l : List Char) : Bool :=
  match dropPat "http://".data l with
  | some r => !(r.isEmpty) && !pyIsSpace (r.headD ' ')
  | none =>
    match dropPat "https://".data l with
    | some r => !(r.isEmpty) && !pyIsSpace (r.headD ' ')
    | none =>
      match dropPat "www.".data l with
      | some r => !(r.isEmpty) && !pyIsSpace (r.headD ' ')
      | none => false

/-- Scanner for `re.sub(r'https?://\S+|www\.\S+', '', text)`.  A match is a
contiguous run of non-whitespace characters starting at a URL head, so the
matched region is deleted by entering a delete-until-whitespace state. -/
def rmUrlGo (del : Bool) : List Char → List Char
  | [] => []
  | c :: cs =>
    if (del && !pyIsSpace c) || isUrlStart (c :: cs) then rmUrlGo true cs
    else c :: rmUrlGo false cs

/-- `remove_urls` from `utils.py`. -/
def remove_urls (l : List Char) : List Char := rmUrlGo false l

/-- Is the head of the list a `\w` character? -/
def headIsWord (l : List Char) : Bool :=
  match l with
  | [] => false
  | c :: _ => isWordChar c

/-- Scanner for `re.sub(r'@\w+', '', text)`: an `@` followed by at least one
word character is deleted together with the following run of word
characters (tracked by the `del` state). -/
def rmMenGo (del : Bool) : List Char → List Char
  | [] => []
  | c :: cs =>
    if del && isWordChar c then rmMenGo true cs
    else if c = '@' && headIsWord cs then rmMenGo true cs
    else c :: rmMenGo false cs

/-- `remove_mentions` from `utils.py`. -/
def remove_mentions (l : List Char) : List Char := rmMenGo false l

/-- `re.sub(r'#(\w+)', r'\1', text)` (the inline hashtag-unwrap step of
`clean_text`): a `#` directly followed by a word character is deleted,
keeping the word. -/
def unwrapHashtags : List Char → List Char
  | [] => []
  | c :: cs =>
    if c = '#' && headIsWord cs then unwrapHashtags cs
    else c :: unwrapHashtags cs

/-- Character ranges of the emoji regex in `remove_emojis`. -/
def isEmoji (c : Char) : Bool :=
  let n := c.toNat
  (0x1F600 ≤ n && n ≤ 0x1F64F) ||
  (0x1F300 ≤ n && n ≤ 0x1F5FF) ||
  (0x1F680 ≤ n && n ≤ 0x1F6FF) ||
  (0x1F1E0 ≤ n && n ≤ 0x1F1FF) ||
  (0x2702 ≤ n && n ≤ 0x27B0) ||
  (0x24C2 ≤ n && n ≤ 0x1F251) ||
  (0x1F926 ≤ n && n ≤ 0x1F937) ||
  (0x10000 ≤ n && n ≤ 0x10FFFF) ||
  (0x2640 ≤ n && n ≤ 0x2642) ||
  (0x2600 ≤ n && n ≤ 0x2B55) ||
  n = 0x200d || n = 0x23cf || n = 0x23e9 || n = 0x231a ||
  n = 0xfe0f || n = 0x3030

/-- `remove_emojis` from `utils.py`: substituting runs of emoji characters by
the empty string deletes exactly the characters in the ranges. -/
def remove_emojis (l : List Char) : List Char := l.filter (fun c => !isEmoji c)

/-- `re.sub(r'[^\w\s]', ' ', text)`: each character that is neither a word
character nor whitespace becomes a space. -/
def punctToSpace (l : List Char) : List Char :=
  l.map (fun c => if isWordChar c || pyIsSpace c then c else ' ')

/-- Is the next non-digit position a word boundary (end of input or a
non-word character)?  Used to decide `\b` after a digit run. -/
def boundaryAfterRun (cs : List Char) : Bool :=
  match cs.dropWhile isDigitChar with
  | [] => true
  | d :: _ => !isWordChar d

/-- Scanner for `re.sub(r'\b\d+\b', '', text)` (`remove_numbers`): a maximal
digit run whose left neighbour is not a word character (`prev = false`) and
whose right neighbour is not a word character is deleted.  `del` marks being
inside a run already decided to be deleted; `prev` records whether the
previous character of the original text is a word character. -/
def rmNumsGo : Bool → Bool → List Char → List Char
  | true, _, [] => []
  | true, _, c :: cs =>
    if isDigitChar c then rmNumsGo true true cs
    else c :: rmNumsGo false (isWordChar c) cs
  | false, _, [] => []
  | false, prev, c :: cs =>
    if isDigitChar c && !prev && boundaryAfterRun cs then rmNumsGo true true cs
    else c :: rmNumsGo false (isWordChar c) cs

/-- `remove_numbers` from `utils.py`. -/
def remove_numbers (l : List Char) : List Char := rmNumsGo false false l

/-- `remove_extra_whitespace` from `utils.py`: `' '.join(text.split())`. -/
def remove_extra_whitespace (l : List Char) : List Char := joinSpace (splitWs l)

/-- `SLANG_DICT` from `utils.py`, in source order. -/
def SLANG_DICT : List (String × String) :=
  [("gak", "tidak"), ("ga", "tidak"), ("nggak", "tidak"), ("enggak", "tidak"),
   ("gk", "tidak"), ("g", "tidak"), ("tdk", "tidak"), ("yg", "yang"),
   ("dgn", "dengan"), ("dg", "dengan"), ("utk", "untuk"), ("u/", "untuk"),
   ("krn", "karena"), ("krna", "karena"), ("karna", "karena"), ("tp", "tapi"),
   ("tpi", "tapi"), ("sm", "sama"), ("sma", "sama"), ("jg", "juga"),
   ("jga", "juga"), ("bgt", "banget"), ("bngt", "banget"), ("bngtt", "banget"),
   ("bgtt", "banget"), ("bet", "banget"), ("skrg", "sekarang"),
   ("skr", "sekarang"), ("skg", "sekarang"), ("bsk", "besok"),
   ("kmrn", "kemarin"), ("kmrin", "kemarin"), ("blm", "belum"),
   ("blom", "belum"), ("udh", "sudah"), ("udah", "sudah"), ("sdh", "sudah"),
   ("sdah", "sudah"), ("dah", "sudah"), ("org", "orang"), ("orng", "orang"),
   ("org2", "orang-orang"), ("kyk", "kayak"), ("kek", "kayak"), ("ky", "kayak"),
   ("emg", "memang"), ("emng", "memang"), ("mmg", "memang"), ("aja", "saja"),
   ("aj", "saja"), ("doang", "saja"), ("doank", "saja"), ("dng", "dong"),
   ("donk", "dong"), ("sih", "sih"), ("si", "sih"), ("loh", "lho"),
   ("lo", "lho"), ("kok", "kok"), ("knp", "kenapa"), ("knapa", "kenapa"),
   ("gmn", "gimana"), ("gmna", "gimana"), ("gmana", "gimana"),
   ("bgmn", "bagaimana"), ("apaan", "apa"), ("apa2", "apa-apa"),
   ("dmn", "dimana"), ("dmna", "dimana"), ("kpn", "kapan"), ("kapn", "kapan"),
   ("brp", "berapa"), ("brapa", "berapa"), ("lg", "lagi"), ("lgi", "lagi"),
   ("lg2", "lagi-lagi"), ("pake", "pakai"), ("pk", "pakai"), ("pke", "pakai"),
   ("bs", "bisa"), ("bsa", "bisa"), ("hrs", "harus"), ("hrus", "harus"),
   ("msh", "masih"), ("msih", "masih"), ("klo", "kalau"), ("kalo", "kalau"),
   ("kl", "kalau"), ("ato", "atau"), ("atw", "atau"), ("dr", "dari"),
   ("dri", "dari"), ("pd", "pada"), ("pda", "pada"), ("ke", "ke"), ("k", "ke"),
   ("abis", "habis"), ("abs", "habis"), ("hbs", "habis"),
   ("btw", "ngomong-ngomong"), ("fyi", "untuk informasi"),
   ("thx", "terima kasih"), ("tks", "terima kasih"), ("mksh", "terima kasih"),
   ("makasi", "terima kasih"), ("makasih", "terima kasih"),
   ("mksih", "terima kasih"), ("pls", "tolong"), ("pliss", "tolong"),
   ("plisss", "tolong"), ("gws", "get well soon"), ("wkwk", "haha"),
   ("wkwkwk", "haha"), ("wkwkwkwk", "haha"), ("hahaha", "haha"),
   ("hahahaha", "haha"), ("kwkwk", "haha"), ("awkwk", "haha"),
   ("xixi", "haha"), ("hehe", "haha"), ("hihi", "haha"), ("hoho", "haha"),
   ("huhu", "sedih"), ("hiks", "sedih")]

/-- The per-word step of `normalize_slang`: look the lowercased word up in
`SLANG_DICT`, falling back to the word itself. -/
def slangWord (t : List Char) : List Char :=
  match SLANG_DICT.lookup (String.mk (t.map pyLower)) with
  | some v => v.data
  | none => t

/-- `normalize_slang` from `utils.py`: split on whitespace, replace each word
by its slang expansion when the lowercased word is a key, rejoin with single
spaces. -/
def normalize_slang (l : List Char) : List Char :=
  joinSpace ((splitWs l).map slangWord)

/-- A Python value passed where a string is expected: either an actual string
or any non-string value (all non-strings behave identically in
`clean_text`, which immediately returns `""` for them). -/
inductive PyVal where
  | str (s : String)
  | nonStr
deriving DecidableEq

/-- The cleaning pipeline of `clean_text` on the character list of a
non-empty string argument, in source order. -/
def cleanPipe (normalize : Bool) (l : List Char) : List Char :=
  let l1 := l.map pyLower
  let l2 := remove_urls l1
  let l3 := remove_mentions l2
  let l4 := unwrapHashtags l3
  let l5 := remove_emojis l4
  let l6 := punctToSpace l5
  let l7 := remove_numbers l6
  let l8 := if normalize then normalize_slang l7 else l7
  pyStrip (remove_extra_whitespace l8)

/-- `clean_text` from `utils.py`.  `not text or not isinstance(text, str)`
returns `""` for every non-string and for the empty string. -/
def clean_text (text : PyVal) (normalize : Bool) : String :=
  match text with
  | .nonStr => ""
  | .str s => if s = "" then "" else String.mk (cleanPipe normalize s.data)

/-- `tokenize` from `utils.py`: `text.split()`. -/
def tokenize (s : String) : List String := (splitWs s.data).map String.mk

example : clean_text (.str "Gak BAGUS!! @user #mantap 123 http://x.co y") true
    = "tidak bagus mantap y" := by decide

/-! ### Rounding

Python `round(x, n)` rounds half to even (banker's rounding).  On `ℚ` the
fractional part is exact, so: if the scaled value sits exactly halfway
between two integers, pick the even one, otherwise round to nearest. -/

/-- Python `round` to an integer: round half to even, expressed on the
reduced numerator and denominator (`q.num / q.den` is the floor of `q`, the
comparison of the remainder with half the denominator decides the
direction, and an exact half rounds to the even neighbour). -/
def pyRound (q : ℚ) : ℤ :=
  let f := q.num / (q.den : ℤ)
  let r := q.num % (q.den : ℤ)
  if 2 * r = q.den then (if f % 2 = 0 then f else f + 1)
  else if 2 * r < q.den then f else f + 1

/-- Python `round(x, 1)`. -/
def round1 (q : ℚ) : ℚ := (pyRound (q * 10) : ℚ) / 10

/-- Python `round(x, 3)`. -/
def round3 (q : ℚ) : ℚ := (pyRound (q * 1000) : ℚ) / 1000

/-! ### `sentiment.py` -/

/-- The sentiment lexicon: the four sections of `lexicon_id.json`, each a
mapping from word to numeric weight (modelled as an association list, looked
up with `List.lookup`). -/
structure Lexicon where
  positif : List (String × ℚ)
  negatif : List (String × ℚ)
  intensifier : List (String × ℚ)
  negator : List (String × ℚ)

/-- The all-empty lexicon built by the `FileNotFoundError` handler. -/
def emptyLexicon : Lexicon := ⟨[], [], [], []⟩

/-- The state of the lexicon resource on disk: present and well-formed,
absent (`FileNotFoundError`), or unparsable (`json.JSONDecodeError`). -/
inductive LexiconResource where
  | ok (l : Lexicon)
  | missing
  | malformed

/-- A Python exception escaping `load_lexicon`. -/
inductive PyError where
  | jsonDecodeError

/-- `load_lexicon` from `sentiment.py` as a function of the resource state:
a successful `json.load` returns the parsed lexicon; `FileNotFoundError` is
caught and replaced by the all-empty lexicon; `json.JSONDecodeError` from a
malformed file is not caught by the `except FileNotFoundError` clause and
propagates to the caller. -/
def load_lexicon : LexiconResource → Except PyError Lexicon
  | .ok l => .ok l
  | .missing => .ok emptyLexicon
  | .malformed => .error .jsonDecodeError

/-- The base weight of one token in `calculate_sentiment_score`
(lines 57-66): `if word in positif: ... elif word in negatif: ... else 0.0`. -/
def base_word_score (lex : Lexicon) (word : String) : ℚ :=
  match lex.positif.lookup word with
  | some v => v
  | none =>
    match lex.negatif.lookup word with
    | some v => v
    | none => 0

/-- The loop body of `calculate_sentiment_score` (lines 57-81): the base
weight, then the negator and intensifier modifiers from `prev_word` and the
halved intensifier modifier from `prev_prev_word`, applied in source
order. -/
def word_weight (lex : Lexicon) (word prev_word prev_prev_word : String) : ℚ :=
  let s0 := base_word_score lex word
  let s1 := match lex.negator.lookup prev_word with
    | some nv => s0 * nv
    | none => s0
  let s2 := match lex.intensifier.lookup prev_word with
    | some iv => s1 * iv
    | none => s1
  match lex.intensifier.lookup prev_prev_word with
  | some iv => s2 * (iv * (1 / 2))
  | none => s2

/-- The scoring loop of `calculate_sentiment_score`: accumulate the modified
word scores, maintaining `prev_word` and `prev_prev_word` (both initially
`""`). -/
def scoreWords (lex : Lexicon) : List String → String → String → ℚ
  | [], _, _ => 0
  | word :: ws, prev_word, prev_prev_word =>
    word_weight lex word prev_word prev_prev_word +
      scoreWords lex ws word prev_word

/-- `calculate_sentiment_score` from `sentiment.py`, with the loaded lexicon
made an explicit argument. -/
def calculate_sentiment_score (lex : Lexicon) (text : PyVal) : ℚ :=
  let words := tokenize (clean_text text true)
  if words.isEmpty then 0
  else round3 (scoreWords lex words "" "" / (max words.length 1 : ℕ))

/-- `classify_sentiment` from `sentiment.py` (thresholds are caller-supplied
parameters; the defaults are `0.1` and `-0.1`). -/
def classify_sentiment (score positive_threshold negative_threshold : ℚ) :
    String :=
  if score > positive_threshold then "positive"
  else if score < negative_threshold then "negative"
  else "neutral"

/-- The per-comment analysis record built by `analyze_text`. -/
structure AnalysisResult where
  original_text : PyVal
  cleaned_text : String
  sentiment_score : ℚ
  sentiment_label : String

/-- `analyze_text` from `sentiment.py`. -/
def analyze_text (lex : Lexicon) (text : PyVal) : AnalysisResult :=
  let cleaned := clean_text text true
  let score := calculate_sentiment_score lex text
  let label := classify_sentiment score (1 / 10) (-(1 / 10))
  { original_text := text, cleaned_text := cleaned,
    sentiment_score := score, sentiment_label := label }

/-- `analyze_batch` from `sentiment.py`: start from an empty list and append
one result per input text, in order. -/
def analyze_batch (lex : Lexicon) (texts : List PyVal) : List AnalysisResult :=
  texts.foldl (fun results text => results ++ [analyze_text lex text]) []

/-- The summary record returned by `get_sentiment_summary`. -/
structure SentimentSummary where
  total : Nat
  positive_count : Nat
  negative_count : Nat
  neutral_count : Nat
  positive_pct : ℚ
  negative_pct : ℚ
  neutral_pct : ℚ
  avg_score : ℚ

/-- `get_sentiment_summary` from `sentiment.py`. -/
def get_sentiment_summary (results : List AnalysisResult) : SentimentSummary :=
  if results.isEmpty then
    { total := 0, positive_count := 0, negative_count := 0, neutral_count := 0,
      positive_pct := 0, negative_pct := 0, neutral_pct := 0, avg_score := 0 }
  else
    let total := results.length
    let positive := results.countP (fun r => r.sentiment_label == "positive")
    let negative := results.countP (fun r => r.sentiment_label == "negative")
    let neutral := results.countP (fun r => r.sentiment_label == "neutral")
    let avg_score := (results.map (fun r => r.sentiment_score)).sum / total
    { total := total, positive_count := positive, negative_count := negative,
      neutral_count := neutral,
      positive_pct := round1 ((positive : ℚ) / total * 100),
      negative_pct := round1 ((negative : ℚ) / total * 100),
      neutral_pct := round1 ((neutral : ℚ) / total * 100),
      avg_score := round3 avg_score }

/-- `word_freq[word] = word_freq.get(word, 0) + 1` on a Python dict, which
preserves insertion order: bump the count in place, or append a new entry. -/
def bumpWord (freq : List (String × Nat)) (w : String) : List (String × Nat) :=
  match freq with
  | [] => [(w, 1)]
  | (k, c) :: rest => if k = w then (k, c + 1) :: rest else (k, c) :: bumpWord rest w

/-- Stable insertion (descending by count) used to model Python's stable
`sorted(..., key=lambda x: x[1], reverse=True)`: a new entry goes after all
existing entries of greater-or-equal count. -/
def insertDesc (p : String × Nat) : List (String × Nat) → List (String × Nat)
  | [] => [p]
  | q :: qs => if p.2 ≤ q.2 then q :: insertDesc p qs else p :: q :: qs

/-- Stable descending sort by count (ties keep first-inserted first), the
behaviour of Python's stable `sorted` with `reverse=True`. -/
def sortDesc (l : List (String × Nat)) : List (String × Nat) :=
  l.foldl (fun acc p => insertDesc p acc) []

/-- `if sentiment and result['sentiment_label'] != sentiment: continue`:
a result is skipped when the filter is a truthy string different from its
label (`None` and `""` are falsy, so they disable the filter). -/
def topwordsSkip (sentiment : Option String) (r : AnalysisResult) : Bool :=
  match sentiment with
  | none => false
  | some s => !(s == "") && !(r.sentiment_label == s)

/-- `get_top_words` from `sentiment.py`: count words of length `> 2` from the
cleaned texts of the (optionally label-filtered) results, then return the
top `top_n` entries by descending count. -/
def get_top_words (results : List AnalysisResult) (sentiment : Option String)
    (top_n : Nat) : List (String × Nat) :=
  let word_freq := results.foldl (fun acc r =>
    if topwordsSkip sentiment r then acc
    else (tokenize r.cleaned_text).foldl
      (fun a w => if 2 < w.length then bumpWord a w else a) acc) []
  (sortDesc word_freq).take top_n

/-! ### Specification-side definitions

`spec_sentiment_score` transcribes the scoring algorithm as the
specification states it (§4.3 of the spec, claim C1): per-index base
weights with look-back at the token one and two places earlier, no
sentinel values. -/

/-- Spec wording: base weight is the positive- or negative-lexicon weight of
the token, else `0.0`. -/
def spec_base (lex : Lexicon) (word : String) : ℚ :=
  match lex.positif.lookup word with
  | some v => v
  | none =>
    match lex.negatif.lookup word with
    | some v => v
    | none => 0

/-- Spec wording: multiply by the negator value when the immediately
preceding token is a negator (no factor when there is no preceding token). -/
def specNegFactor (lex : Lexicon) : Option String → ℚ
  | some w => match lex.negator.lookup w with
    | some nv => nv
    | none => 1
  | none => 1

/-- Spec wording: multiply by the intensifier value when the immediately
preceding token is an intensifier. -/
def specIntFactor (lex : Lexicon) : Option String → ℚ
  | some w => match lex.intensifier.lookup w with
    | some iv => iv
    | none => 1
  | none => 1

/-- Spec wording: multiply by `(intensifier value * 0.5)` when the token two
back is an intensifier. -/
def specInt2Factor (lex : Lexicon) : Option String → ℚ
  | some w => match lex.intensifier.lookup w with
    | some iv => iv * (1 / 2)
    | none => 1
  | none => 1

/-- The spec's weight of one token given the (optional) preceding token and
the (optional) token two back. -/
def spec_token_weight (lex : Lexicon) (t : String) (p1 p2 : Option String) : ℚ :=
  spec_base lex t * specNegFactor lex p1 * specIntFactor lex p1 *
    specInt2Factor lex p2

/-- The token `k` places before position `i`, when it exists. -/
def spec_prev (ts : List String) (i k : Nat) : Option String :=
  if k ≤ i then ts[i - k]? else none

/-- The negator factor contributed by the previous-word string state of the
code's loop (`1` when the string is not a negator key). -/
def negFactorStr (lex : Lexicon) (s : String) : ℚ :=
  match lex.negator.lookup s with
  | some nv => nv
  | none => 1

/-- The intensifier factor contributed by the previous-word string state. -/
def intFactorStr (lex : Lexicon) (s : String) : ℚ :=
  match lex.intensifier.lookup s with
  | some iv => iv
  | none => 1

/-- The halved intensifier factor contributed by the word two back. -/
def int2FactorStr (lex : Lexicon) (s : String) : ℚ :=
  match lex.intensifier.lookup s with
  | some iv => iv * (1 / 2)
  | none => 1

/-- The score as stated by the spec: normalize (slang expansion on),
tokenize on whitespace, `0.0` on zero tokens, otherwise the sum of the
per-token weights divided by the token count, rounded to 3 decimals. -/
def spec_sentiment_score (lex : Lexicon) (text : PyVal) : ℚ :=
  let ts := tokenize (clean_text text true)
  if ts.isEmpty then 0
  else
    round3 ((((List.range ts.length).map (fun i =>
      spec_token_weight lex (ts.getD i "") (spec_prev ts i 1)
        (spec_prev ts i 2))).sum) / ts.length)

/-! ### Helper notions for the word-frequency claims -/

/-- Index of the first occurrence of a word in a token stream. -/
def firstIdx (w : String) : List String → Nat
  | [] => 0
  | x :: xs => if x = w then 0 else firstIdx w xs + 1

/-- The stream of counted tokens of `get_top_words`, in processing order:
tokens of the cleaned texts of the non-skipped results, restricted to
length `> 2`. -/
def topwordsStream (results : List AnalysisResult) (sentiment : Option String) :
    List String :=
  ((results.filter (fun r => !topwordsSkip sentiment r)).flatMap
    (fun r => tokenize r.cleaned_text)).filter (fun w => 2 < w.length)

/-- The ordering claimed for `get_top_words` output: strictly larger count
first, ties by first appearance in the counted token stream. -/
def topwordsRank (stream : List String) (a b : String × Nat) : Prop :=
  b.2 < a.2 ∨ (a.2 = b.2 ∧ firstIdx a.1 stream < firstIdx b.1 stream)

/-! ### Helper notions for the cleaning-idempotence claim -/

/-- A character of an already-clean string: lowercase ASCII letter, digit,
underscore, or whitespace (no uppercase, no punctuation, hence no URL,
mention, hashtag or emoji syntax). -/
def cleanChar (c : Char) : Bool :=
  (97 ≤ c.toNat && c.toNat ≤ 122) || isDigitChar c || c.toNat = 95 ||
    pyIsSpace c

/-- A token whose slang expansion (if it is a slang key at all) introduces no
punctuation: its `SLANG_DICT` value, when present, contains no hyphen. -/
def slangSafe (t : List Char) : Bool :=
  match SLANG_DICT.lookup (String.mk (t.map pyLower)) with
  | some v => !v.data.contains '-'
  | none => true

/-- Character-level wellformedness of one token of a cleaned string:
nonempty, made of clean non-space characters, not all digits, and a fixed
point of slang normalization. -/
def goodTok (t : List Char) : Bool :=
  !t.isEmpty && t.all (fun c => cleanChar c && !pyIsSpace c) &&
    !t.all isDigitChar && (slangWord t == t)

/-- Table-level check: every `SLANG_DICT` value free of hyphens splits into
nonempty all-lowercase-letter tokens that slang normalization leaves
unchanged. -/
def slangValueOk (v : String) : Bool :=
  v.data.contains '-' ||
    (splitWs v.data).all (fun t =>
      !t.isEmpty && t.all (fun c => 97 ≤ c.toNat && c.toNat ≤ 122) &&
        (slangWord t == t))

/-! ### Concrete inputs for witnesses and counterexamples -/

/-- A small concrete lexicon used to instantiate universally quantified
theorems. -/
def demoLex : Lexicon :=
  { positif := [("bagus", 2), ("mantap", 3 / 2)],
    negatif := [("jelek", -2)],
    intensifier := [("banget", 3 / 2)],
    negator := [("tidak", -1)] }

/-- A lexicon listing the same word in both the positive and the negative
section, with distinct weights. -/
def bothLex : Lexicon :=
  { positif := [("ambigu", 2)], negatif := [("ambigu", 3)],
    intensifier := [], negator := [] }

/-- A concrete batch of results, one per label class. -/
def demoResults : List AnalysisResult :=
  [{ original_text := .str "a", cleaned_text := "a", sentiment_score := 1,
     sentiment_label := "positive" },
   { original_text := .str "b", cleaned_text := "b", sentiment_score := -1,
     sentiment_label := "negative" },
   { original_text := .str "c", cleaned_text := "c", sentiment_score := 0,
     sentiment_label := "neutral" }]

/-! ## Theorems -/

/-! ### Rounding lemmas -/

theorem abs_pyRound_sub_le (q : ℚ) : |(pyRound q : ℚ) - q| ≤ 1 / 2 := by
  have hd : (0 : ℤ) < (q.den : ℤ) := by exact_mod_cast q.pos
  have hdq : (0 : ℚ) < (q.den : ℚ) := by exact_mod_cast q.pos
  have hr0 : (0 : ℚ) ≤ ((q.num % (q.den : ℤ) : ℤ) : ℚ) := by
    exact_mod_cast Int.emod_nonneg q.num hd.ne'
  have hrd : ((q.num % (q.den : ℤ) : ℤ) : ℚ) < (q.den : ℚ) := by
    exact_mod_cast Int.emod_lt_of_pos q.num hd
  have hkey : q * (q.den : ℚ) =
      (q.den : ℚ) * ((q.num / (q.den : ℤ) : ℤ) : ℚ) +
        ((q.num % (q.den : ℤ) : ℤ) : ℚ) := by
    have h1 : ((q.num : ℤ) : ℚ) = q * (q.den : ℚ) :=
      (div_eq_iff hdq.ne').mp (Rat.num_div_den q)
    rw [← h1]
    exact_mod_cast congrArg (fun z : ℤ => (z : ℚ))
      (Int.ediv_add_emod q.num (q.den : ℤ)).symm
  have hpr : pyRound q =
      (if 2 * (q.num % (q.den : ℤ)) = q.den then
        (if (q.num / (q.den : ℤ)) % 2 = 0 then q.num / (q.den : ℤ)
          else q.num / (q.den : ℤ) + 1)
      else if 2 * (q.num % (q.den : ℤ)) < q.den then q.num / (q.den : ℤ)
      else q.num / (q.den : ℤ) + 1) := rfl
  rw [hpr]
  split_ifs with hfrac heven hsmall <;> push_cast <;> rw [abs_le] <;>
    constructor
  · nlinarith [hkey, hdq, (by exact_mod_cast hfrac :
      2 * ((q.num % (q.den : ℤ) : ℤ) : ℚ) = (q.den : ℚ))]
  · nlinarith [hkey, hdq, (by exact_mod_cast hfrac :
      2 * ((q.num % (q.den : ℤ) : ℤ) : ℚ) = (q.den : ℚ))]
  · nlinarith [hkey, hdq, (by exact_mod_cast hfrac :
      2 * ((q.num % (q.den : ℤ) : ℤ) : ℚ) = (q.den : ℚ))]
  · nlinarith [hkey, hdq, (by exact_mod_cast hfrac :
      2 * ((q.num % (q.den : ℤ) : ℤ) : ℚ) = (q.den : ℚ))]
  · nlinarith [hkey, hdq, hr0, (by exact_mod_cast hsmall :
      2 * ((q.num % (q.den : ℤ) : ℤ) : ℚ) < (q.den : ℚ))]
  · nlinarith [hkey, hdq, hr0, (by exact_mod_cast hsmall :
      2 * ((q.num % (q.den : ℤ) : ℤ) : ℚ) < (q.den : ℚ))]
  · nlinarith [hkey, hdq, hrd, (by exact_mod_cast not_lt.mp hsmall :
      (q.den : ℚ) ≤ 2 * ((q.num % (q.den : ℤ) : ℤ) : ℚ))]
  · nlinarith [hkey, hdq, hrd, (by exact_mod_cast not_lt.mp hsmall :
      (q.den : ℚ) ≤ 2 * ((q.num % (q.den : ℤ) : ℤ) : ℚ))]

theorem pyRound_intCast (z : ℤ) : pyRound (z : ℚ) = z := by
  simp [pyRound, Rat.num_intCast, Rat.den_intCast, Int.emod_one, Int.ediv_one]

theorem round3_intCast (z : ℤ) : round3 (z : ℚ) = z := by
  unfold round3
  rw [show ((z : ℚ) * 1000) = ((z * 1000 : ℤ) : ℚ) by push_cast; ring,
    pyRound_intCast]
  push_cast
  field_simp

theorem abs_round1_sub_le (q : ℚ) : |round1 q - q| ≤ 1 / 20 := by
  unfold round1
  have h := abs_pyRound_sub_le (q * 10)
  rw [show (pyRound (q * 10) : ℚ) / 10 - q = ((pyRound (q * 10) : ℚ) - q * 10) / 10 by ring,
    abs_div]
  rw [show |(10 : ℚ)| = 10 by norm_num]
  linarith

/-! ### C1: the score follows the stated algorithm -/

theorem word_weight_factored (lex : Lexicon) (w p pp : String) :
    word_weight lex w p pp =
      base_word_score lex w * negFactorStr lex p * intFactorStr lex p *
        int2FactorStr lex pp := by
  rcases hn : lex.negator.lookup p with _ | nv <;>
    rcases hi : lex.intensifier.lookup p with _ | iv <;>
    rcases hj : lex.intensifier.lookup pp with _ | jv <;>
    simp only [word_weight, negFactorStr, intFactorStr, int2FactorStr,
      hn, hi, hj] <;> ring

theorem specNegFactor_eq (lex : Lexicon)
    (h1 : lex.negator.lookup "" = none) (p : Option String) :
    specNegFactor lex p = negFactorStr lex (p.getD "") := by
  cases p with
  | none => simp [specNegFactor, negFactorStr, h1]
  | some a => rfl

theorem specIntFactor_eq (lex : Lexicon)
    (h2 : lex.intensifier.lookup "" = none) (p : Option String) :
    specIntFactor lex p = intFactorStr lex (p.getD "") := by
  cases p with
  | none => simp [specIntFactor, intFactorStr, h2]
  | some a => rfl

theorem specInt2Factor_eq (lex : Lexicon)
    (h2 : lex.intensifier.lookup "" = none) (p : Option String) :
    specInt2Factor lex p = int2FactorStr lex (p.getD "") := by
  cases p with
  | none => simp [specInt2Factor, int2FactorStr, h2]
  | some a => rfl

theorem word_weight_eq_spec (lex : Lexicon)
    (h1 : lex.negator.lookup "" = none)
    (h2 : lex.intensifier.lookup "" = none) (w : String)
    (p1 p2 : Option String) :
    word_weight lex w (p1.getD "") (p2.getD "") =
      spec_token_weight lex w p1 p2 := by
  rw [word_weight_factored, spec_token_weight,
    specNegFactor_eq lex h1, specIntFactor_eq lex h2,
    specInt2Factor_eq lex h2]
  rfl

theorem scoreWords_eq_spec_sum (lex : Lexicon)
    (h1 : lex.negator.lookup "" = none)
    (h2 : lex.intensifier.lookup "" = none) :
    ∀ (ws : List String) (p1 p2 : Option String),
      scoreWords lex ws (p1.getD "") (p2.getD "") =
        ((List.range ws.length).map (fun i =>
          spec_token_weight lex (ws.getD i "")
            (if i = 0 then p1 else ws[i - 1]?)
            (if i = 0 then p2 else if i = 1 then p1 else ws[i - 2]?))).sum := by
  intro ws
  induction ws with
  | nil => intro p1 p2; simp [scoreWords]
  | cons w ws ih =>
    intro p1 p2
    show word_weight lex w (p1.getD "") (p2.getD "") +
        scoreWords lex ws w (p1.getD "") = _
    have hrec : scoreWords lex ws w (p1.getD "") =
        ((List.range ws.length).map (fun i =>
          spec_token_weight lex (ws.getD i "")
            (if i = 0 then some w else ws[i - 1]?)
            (if i = 0 then p1 else if i = 1 then some w
              else ws[i - 2]?))).sum := ih (some w) p1
    rw [hrec, word_weight_eq_spec lex h1 h2 w p1 p2,
      List.length_cons, List.range_succ_eq_map, List.map_cons,
      List.sum_cons, List.map_map]
    congr 1
    refine congrArg List.sum (List.map_congr_left fun i _ => ?_)
    rcases i with _ | _ | j <;>
      simp [Function.comp, List.getD_cons_succ, List.getElem?_cons_succ]

theorem spec_prev_one (ts : List String) (i : Nat) :
    spec_prev ts i 1 = if i = 0 then none else ts[i - 1]? := by
  rcases i with _ | j <;> simp [spec_prev]

theorem spec_prev_two (ts : List String) (i : Nat) :
    spec_prev ts i 2 =
      if i = 0 then none else if i = 1 then none else ts[i - 2]? := by
  rcases i with _ | _ | j <;> simp [spec_prev]

/-- C1: for every lexicon whose negator/intensifier sections key only actual
words (the empty string is not a key, which holds for any lexicon read from
the JSON word map) and every input, `calculate_sentiment_score` computes
exactly the algorithm stated by the spec: normalize with slang expansion,
tokenize on whitespace, `0.0` on zero tokens, otherwise per-token base
weights multiplied by the negator/intensifier factor of the immediately
preceding token and the halved intensifier factor of the token two back,
summed, divided by the token count, rounded to 3 decimals. -/
theorem claim_C1_score_follows_spec (lex : Lexicon)
    (h1 : lex.negator.lookup "" = none)
    (h2 : lex.intensifier.lookup "" = none) (text : PyVal) :
    calculate_sentiment_score lex text = spec_sentiment_score lex text := by
  have hform : calculate_sentiment_score lex text =
      if (tokenize (clean_text text true)).isEmpty then 0
      else round3 (scoreWords lex (tokenize (clean_text text true)) "" "" /
        (max (tokenize (clean_text text true)).length 1 : ℕ)) := rfl
  have hspec : spec_sentiment_score lex text =
      if (tokenize (clean_text text true)).isEmpty then 0
      else round3 ((((List.range
          (tokenize (clean_text text true)).length).map (fun i =>
        spec_token_weight lex ((tokenize (clean_text text true)).getD i "")
          (spec_prev (tokenize (clean_text text true)) i 1)
          (spec_prev (tokenize (clean_text text true)) i 2))).sum) /
        (tokenize (clean_text text true)).length) := rfl
  rw [hform, hspec]
  by_cases he : (tokenize (clean_text text true)).isEmpty
  · rw [if_pos he, if_pos he]
  · rw [if_neg he, if_neg he]
    have hne : tokenize (clean_text text true) ≠ [] := by
      simpa [List.isEmpty_iff] using he
    have hlen : 1 ≤ (tokenize (clean_text text true)).length :=
      Nat.one_le_iff_ne_zero.mpr (by
        simpa [List.length_eq_zero] using hne)
    have hsum := scoreWords_eq_spec_sum lex h1 h2
      (tokenize (clean_text text true)) none none
    simp only [Option.getD_none] at hsum
    rw [hsum, Nat.max_eq_left hlen]
    congr 1
    congr 1
    refine congrArg List.sum (List.map_congr_left fun i _ => ?_)
    rw [spec_prev_one, spec_prev_two]

/-- C1 (witness): the equivalence theorem applied at the demo lexicon (whose
negator/intensifier sections do not key the empty string) and a concrete
sentence exercising slang expansion, a negator and an intensifier. -/
theorem claim_C1_witness :
    demoLex.negator.lookup "" = none ∧
      demoLex.intensifier.lookup "" = none ∧
      calculate_sentiment_score demoLex (.str "gak bagus banget") =
        spec_sentiment_score demoLex (.str "gak bagus banget") :=
  ⟨rfl, rfl,
    claim_C1_score_follows_spec demoLex rfl rfl (.str "gak bagus banget")⟩

/-! ### C2: classification partition -/

/-- C2 (counterexample): with caller-supplied thresholds
`positive_threshold = -1`, `negative_threshold = 0` and score `-1/2`, the
score is strictly less than the negative threshold yet `classify_sentiment`
returns `"positive"`, not `"negative"`: the claimed biconditional for
`"negative"` fails for arbitrary threshold pairs. -/
theorem claim_C2_counterexample :
    ((-(1 : ℚ) / 2) < 0) ∧
      classify_sentiment (-(1 : ℚ) / 2) (-1) 0 = "positive" ∧
      classify_sentiment (-(1 : ℚ) / 2) (-1) 0 ≠ "negative" := by
  refine ⟨by norm_num, ?_, ?_⟩ <;>
    simp [classify_sentiment, show (-1 : ℚ) < -(1 : ℚ) / 2 by norm_num]

/-- C2 (amended): provided the caller-supplied thresholds satisfy
`negative_threshold ≤ positive_threshold` (true of the defaults
`-0.1 ≤ 0.1`), `classify_sentiment` returns `"positive"` exactly when the
score strictly exceeds the positive threshold, `"negative"` exactly when it
is strictly below the negative threshold, `"neutral"` otherwise; scores
equal to either threshold are `"neutral"`, and every score gets exactly one
of the three labels. -/
theorem claim_C2_classify_partition (s pt nt : ℚ) (h : nt ≤ pt) :
    (classify_sentiment s pt nt = "positive" ↔ pt < s) ∧
      (classify_sentiment s pt nt = "negative" ↔ s < nt) ∧
      (classify_sentiment s pt nt = "neutral" ↔ nt ≤ s ∧ s ≤ pt) ∧
      (s = pt → classify_sentiment s pt nt = "neutral") ∧
      (s = nt → classify_sentiment s pt nt = "neutral") := by
  unfold classify_sentiment
  split_ifs with hp hn
  · refine ⟨by simp [hp], by simp; linarith, by simp; intro; linarith,
      fun he => absurd hp (by rw [he]; exact lt_irrefl pt), fun he => ?_⟩
    rw [he] at hp
    exact absurd hp (not_lt.mpr h)
  · exact ⟨by simp; linarith, by simp [hn], by simp; intro; linarith,
      fun he => absurd hn (by rw [he]; exact not_lt.mpr h),
      fun he => absurd hn (by rw [he]; exact lt_irrefl nt)⟩
  · exact ⟨by simp; linarith, by simp; linarith,
      by simp; exact ⟨not_lt.mp hn, not_lt.mp hp⟩, fun _ => rfl, fun _ => rfl⟩

/-- C2 (witness): the amended theorem applied at the default thresholds and
score `0`. -/
theorem claim_C2_witness :
    ((-(1 : ℚ) / 10) ≤ 1 / 10) ∧
      (classify_sentiment 0 (1 / 10) (-(1 : ℚ) / 10) = "neutral" ↔
        (-(1 : ℚ) / 10) ≤ 0 ∧ (0 : ℚ) ≤ 1 / 10) := by
  exact ⟨by norm_num,
    (claim_C2_classify_partition 0 (1 / 10) (-(1 : ℚ) / 10)
      (by norm_num)).2.2.1⟩

/-! ### C3: precedence for tokens in both lexicon sections -/

/-- C3 (counterexample): `"ambigu"` is listed in both sections of `bothLex`
with positive weight `2` and negative weight `3`; the scorer's base weight
(and the full one-token score) is `2`, the positive-section weight, not the
negative one — the `elif` makes the first-checked category win. -/
theorem claim_C3_counterexample :
    bothLex.positif.lookup "ambigu" = some 2 ∧
      bothLex.negatif.lookup "ambigu" = some 3 ∧
      base_word_score bothLex "ambigu" = 2 ∧
      calculate_sentiment_score bothLex (.str "ambigu") = 2 ∧
      (2 : ℚ) ≠ 3 := by
  refine ⟨rfl, rfl, rfl, ?_, by norm_num⟩
  have hform : calculate_sentiment_score bothLex (.str "ambigu") =
      if (tokenize (clean_text (.str "ambigu") true)).isEmpty then 0
      else round3 (scoreWords bothLex
        (tokenize (clean_text (.str "ambigu") true)) "" "" /
        (max (tokenize (clean_text (.str "ambigu") true)).length 1 : ℕ)) := rfl
  have htok : tokenize (clean_text (.str "ambigu") true) = ["ambigu"] := by
    decide
  have hsw : scoreWords bothLex ["ambigu"] "" "" = 2 + 0 := rfl
  rw [hform, htok]
  simp only [List.isEmpty_cons, Bool.false_eq_true, if_false, hsw]
  rw [show ((2 : ℚ) + 0) / ((max (["ambigu"].length) 1 : ℕ) : ℚ) =
    ((2 : ℤ) : ℚ) by norm_num, round3_intCast]
  norm_num

/-- C3 (amended): for every token listed in both the positive and the
negative mapping, the scorer's base weight is the positive-category weight:
the first-checked category (positive) wins, because the negative lookup
sits in an `elif`. -/
theorem claim_C3_positive_wins (lex : Lexicon) (w : String) (pv : ℚ)
    (h : lex.positif.lookup w = some pv) : base_word_score lex w = pv := by
  unfold base_word_score
  rw [h]

/-- C3 (witness): the amended theorem at `bothLex` and `"ambigu"`. -/
theorem claim_C3_witness :
    bothLex.positif.lookup "ambigu" = some 2 ∧
      base_word_score bothLex "ambigu" = 2 :=
  ⟨rfl, claim_C3_positive_wins bothLex "ambigu" 2 rfl⟩

/-! ### C4: lexicon fallback -/

/-- Scoring with the all-empty lexicon gives weight `0` to every word. -/
theorem scoreWords_emptyLexicon (ws : List String) (p1 p2 : String) :
    scoreWords emptyLexicon ws p1 p2 = 0 := by
  induction ws generalizing p1 p2 with
  | nil => rfl
  | cons w ws ih =>
    show word_weight emptyLexicon w p1 p2 + scoreWords emptyLexicon ws w p1 = 0
    rw [show word_weight emptyLexicon w p1 p2 = 0 from rfl, zero_add]
    exact ih w p1

theorem round3_zero : round3 0 = 0 := by
  have h := round3_intCast 0
  simpa using h

/-- C4 (counterexample): a malformed lexicon resource raises
`json.JSONDecodeError` inside `json.load`, which the
`except FileNotFoundError` clause does not catch: `load_lexicon` propagates
the error to the caller instead of substituting the all-empty lexicon. -/
theorem claim_C4_counterexample :
    load_lexicon .malformed = .error .jsonDecodeError := rfl

/-- C4 (amended): when the lexicon resource is missing (file not found),
`load_lexicon` recovers locally with the all-empty lexicon and no error
reaches the caller; downstream scoring with that lexicon still runs and
yields score `0` and label `"neutral"` for every input. -/
theorem claim_C4_missing_fallback :
    load_lexicon .missing = .ok emptyLexicon ∧
      ∀ text : PyVal, calculate_sentiment_score emptyLexicon text = 0 ∧
        (analyze_text emptyLexicon text).sentiment_label = "neutral" := by
  refine ⟨rfl, fun text => ?_⟩
  have hform : calculate_sentiment_score emptyLexicon text =
      if (tokenize (clean_text text true)).isEmpty then 0
      else round3 (scoreWords emptyLexicon (tokenize (clean_text text true))
        "" "" / (max (tokenize (clean_text text true)).length 1 : ℕ)) := rfl
  have hscore : calculate_sentiment_score emptyLexicon text = 0 := by
    rw [hform]
    split_ifs with h
    · rfl
    · rw [scoreWords_emptyLexicon]
      rw [zero_div, round3_zero]
  refine ⟨hscore, ?_⟩
  show classify_sentiment (calculate_sentiment_score emptyLexicon text) _ _ = _
  rw [hscore]
  norm_num [classify_sentiment]

/-! ### C5: non-string or empty input -/

/-- C5: `clean_text` is total; for a non-string or empty input it returns
`""`, and `analyze_text` on such input yields empty cleaned text, score
`0.0` and label `"neutral"` instead of failing. -/
theorem claim_C5_empty_input (lex : Lexicon) (v : PyVal)
    (h : v = .nonStr ∨ v = .str "") :
    clean_text v true = "" ∧ (analyze_text lex v).cleaned_text = "" ∧
      (analyze_text lex v).sentiment_score = 0 ∧
      (analyze_text lex v).sentiment_label = "neutral" := by
  have hscore : ∀ w : PyVal, clean_text w true = "" →
      calculate_sentiment_score lex w = 0 := by
    intro w hw
    have hform : calculate_sentiment_score lex w =
        if (tokenize (clean_text w true)).isEmpty then 0
        else round3 (scoreWords lex (tokenize (clean_text w true)) "" "" /
          (max (tokenize (clean_text w true)).length 1 : ℕ)) := rfl
    rw [hform, hw]
    rfl
  have hne : clean_text PyVal.nonStr true = "" := rfl
  have hemp : clean_text (PyVal.str "") true = "" := rfl
  rcases h with h | h <;> subst h
  · exact ⟨hne, hne, hscore PyVal.nonStr hne, by
      show classify_sentiment (calculate_sentiment_score lex _) _ _ = _
      rw [hscore PyVal.nonStr hne]; norm_num [classify_sentiment]⟩
  · exact ⟨hemp, hemp, hscore (PyVal.str "") hemp, by
      show classify_sentiment (calculate_sentiment_score lex _) _ _ = _
      rw [hscore (PyVal.str "") hemp]; norm_num [classify_sentiment]⟩

/-- C5 (witness): at a non-string input and the demo lexicon. -/
theorem claim_C5_witness :
    (PyVal.nonStr = PyVal.nonStr ∨ PyVal.nonStr = PyVal.str "") ∧
      clean_text PyVal.nonStr true = "" ∧
      (analyze_text demoLex PyVal.nonStr).sentiment_score = 0 ∧
      (analyze_text demoLex PyVal.nonStr).sentiment_label = "neutral" := by
  have h := claim_C5_empty_input demoLex PyVal.nonStr (Or.inl rfl)
  exact ⟨Or.inl rfl, h.1, h.2.2.1, h.2.2.2⟩

/-! ### C6: summary of the empty collection -/

/-- C6: `get_sentiment_summary []` returns total `0`, every count `0`, every
percentage `0` and average score `0` (and, being a total function, raises
nothing). -/
theorem claim_C6_empty_summary :
    (get_sentiment_summary []).total = 0 ∧
      (get_sentiment_summary []).positive_count = 0 ∧
      (get_sentiment_summary []).negative_count = 0 ∧
      (get_sentiment_summary []).neutral_count = 0 ∧
      (get_sentiment_summary []).positive_pct = 0 ∧
      (get_sentiment_summary []).negative_pct = 0 ∧
      (get_sentiment_summary []).neutral_pct = 0 ∧
      (get_sentiment_summary []).avg_score = 0 :=
  ⟨rfl, rfl, rfl, rfl, rfl, rfl, rfl, rfl⟩

/-! ### C7: shape and order of the top-words table -/

theorem tokfold_filter (ws : List String) (acc : List (String × Nat)) :
    ws.foldl (fun a w => if 2 < w.length then bumpWord a w else a) acc =
      (ws.filter (fun w => 2 < w.length)).foldl bumpWord acc := by
  induction ws generalizing acc with
  | nil => rfl
  | cons w ws ih =>
    by_cases h : 2 < w.length <;>
      simp [List.foldl_cons, List.filter_cons, h, ih]

theorem freq_fold_stream (results : List AnalysisResult)
    (sentiment : Option String) :
    ∀ acc : List (String × Nat),
    results.foldl (fun acc r =>
        if topwordsSkip sentiment r then acc
        else (tokenize r.cleaned_text).foldl
          (fun a w => if 2 < w.length then bumpWord a w else a) acc) acc =
      (topwordsStream results sentiment).foldl bumpWord acc := by
  induction results with
  | nil => intro acc; rfl
  | cons r rs ih =>
    intro acc
    by_cases h : topwordsSkip sentiment r
    · rw [List.foldl_cons, if_pos h, ih]
      unfold topwordsStream
      rw [List.filter_cons, if_neg (by simp [h])]
    · rw [List.foldl_cons, if_neg h, ih, tokfold_filter]
      unfold topwordsStream
      rw [List.filter_cons, if_pos (by simp [h]), List.flatMap_cons,
        List.filter_append, List.foldl_append]

theorem firstIdx_append_left (w : String) (pre post : List String)
    (h : w ∈ pre) : firstIdx w (pre ++ post) < pre.length := by
  induction pre with
  | nil => cases h
  | cons p pre ih =>
    by_cases hp : p = w
    · simp [firstIdx, hp]
    · rcases List.mem_cons.mp h with h' | h'
      · exact absurd h'.symm hp
      · simpa [firstIdx, hp] using ih h'

theorem firstIdx_append_right (w : String) (pre post : List String)
    (h : w ∉ pre) : firstIdx w (pre ++ post) = pre.length + firstIdx w post := by
  induction pre with
  | nil => simp
  | cons p pre ih =>
    have hp : p ≠ w := fun he => h (he ▸ List.mem_cons_self p pre)
    have h' : w ∉ pre := fun hm => h (List.mem_cons_of_mem p hm)
    simp [firstIdx, hp, ih h']
    omega

theorem bumpWord_keys (w : String) :
    ∀ f : List (String × Nat),
    (bumpWord f w).map Prod.fst =
      if w ∈ f.map Prod.fst then f.map Prod.fst
      else f.map Prod.fst ++ [w] := by
  intro f
  induction f with
  | nil => simp [bumpWord]
  | cons q f ih =>
    rcases q with ⟨k, c⟩
    by_cases hk : k = w
    · simp [bumpWord, hk]
    · have hne : ¬w = k := fun he => hk he.symm
      by_cases hw : w ∈ f.map Prod.fst <;>
        simp [bumpWord, hk, ih, hw, hne, List.mem_cons]

theorem freq_fold_invariant (s : List String) :
    ∀ (post pre : List String) (f : List (String × Nat)),
      s = pre ++ post →
      (f.map Prod.fst).Pairwise (fun a b => firstIdx a s < firstIdx b s) →
      (∀ k ∈ f.map Prod.fst, k ∈ pre) →
      (∀ w ∈ pre, w ∈ f.map Prod.fst) →
      ((post.foldl bumpWord f).map Prod.fst).Pairwise
          (fun a b => firstIdx a s < firstIdx b s) ∧
        ∀ k ∈ (post.foldl bumpWord f).map Prod.fst, k ∈ pre ++ post := by
  intro post
  induction post with
  | nil =>
    intro pre f hs hP hdom hcomp
    exact ⟨hP, fun k hk => by simpa using hdom k hk⟩
  | cons w post ih =>
    intro pre f hs hP hdom hcomp
    have hs' : s = (pre ++ [w]) ++ post := by
      rw [hs, List.append_assoc]
      rfl
    by_cases hw : w ∈ f.map Prod.fst
    · have hkeys : (bumpWord f w).map Prod.fst = f.map Prod.fst := by
        rw [bumpWord_keys, if_pos hw]
      have h1 := hkeys ▸ hP
      have h2 : ∀ k ∈ (bumpWord f w).map Prod.fst, k ∈ pre ++ [w] :=
        fun k hk => List.mem_append_left _ (hdom k (hkeys ▸ hk))
      have h3 : ∀ x ∈ pre ++ [w], x ∈ (bumpWord f w).map Prod.fst := by
        intro x hx
        rw [hkeys]
        rcases List.mem_append.mp hx with hx' | hx'
        · exact hcomp x hx'
        · rw [List.mem_singleton.mp hx']
          exact hw
      obtain ⟨hq1, hq2⟩ := ih (pre ++ [w]) (bumpWord f w) hs' h1 h2 h3
      rw [List.foldl_cons]
      refine ⟨hq1, fun k hk => ?_⟩
      have := hq2 k hk
      rwa [List.append_assoc] at this
    · have hwpre : w ∉ pre := fun hm => hw (hcomp w hm)
      have hkeys : (bumpWord f w).map Prod.fst = f.map Prod.fst ++ [w] := by
        rw [bumpWord_keys, if_neg hw]
      have h1 : ((bumpWord f w).map Prod.fst).Pairwise
          (fun a b => firstIdx a s < firstIdx b s) := by
        rw [hkeys, List.pairwise_append]
        refine ⟨hP, List.pairwise_singleton _ _, ?_⟩
        intro a ha b hb
        rw [List.mem_singleton.mp hb]
        have hlt : firstIdx a s < pre.length := by
          rw [hs]
          exact firstIdx_append_left a pre (w :: post) (hdom a ha)
        have hge : pre.length ≤ firstIdx w s := by
          rw [hs, firstIdx_append_right w pre (w :: post) hwpre]
          exact Nat.le_add_right _ _
        exact hlt.trans_le hge
      have h2 : ∀ k ∈ (bumpWord f w).map Prod.fst, k ∈ pre ++ [w] := by
        intro k hk
        rw [hkeys] at hk
        rcases List.mem_append.mp hk with hk' | hk'
        · exact List.mem_append_left _ (hdom k hk')
        · exact List.mem_append_right _ hk'
      have h3 : ∀ x ∈ pre ++ [w], x ∈ (bumpWord f w).map Prod.fst := by
        intro x hx
        rw [hkeys]
        rcases List.mem_append.mp hx with hx' | hx'
        · exact List.mem_append_left _ (hcomp x hx')
        · exact List.mem_append_right _ hx'
      obtain ⟨hq1, hq2⟩ := ih (pre ++ [w]) (bumpWord f w) hs' h1 h2 h3
      rw [List.foldl_cons]
      refine ⟨hq1, fun k hk => ?_⟩
      have := hq2 k hk
      rwa [List.append_assoc] at this

theorem mem_insertDesc (p x : String × Nat) :
    ∀ acc, x ∈ insertDesc p acc ↔ x = p ∨ x ∈ acc := by
  intro acc
  induction acc with
  | nil => simp [insertDesc]
  | cons q qs ih =>
    rw [insertDesc]
    split_ifs with h
    · simp only [List.mem_cons, ih]
      tauto
    · exact List.mem_cons

theorem insertDesc_pairwise (s : List String) (p : String × Nat) :
    ∀ acc, acc.Pairwise (topwordsRank s) →
      (∀ q ∈ acc, q.2 = p.2 → firstIdx q.1 s < firstIdx p.1 s) →
      (insertDesc p acc).Pairwise (topwordsRank s) := by
  intro acc
  induction acc with
  | nil => intro _ _; exact List.pairwise_singleton _ _
  | cons q qs ih =>
    intro hpair htie
    obtain ⟨hq, hqs⟩ := List.pairwise_cons.mp hpair
    rw [insertDesc]
    split_ifs with hle
    · refine List.pairwise_cons.mpr ⟨?_,
        ih hqs (fun x hx he => htie x (List.mem_cons_of_mem _ hx) he)⟩
      intro x hx
      rcases (mem_insertDesc p x qs).mp hx with rfl | hx'
      · rcases lt_or_eq_of_le hle with hlt | heq
        · exact Or.inl hlt
        · exact Or.inr ⟨heq.symm,
            htie q (List.mem_cons_self q qs) heq.symm⟩
      · exact hq x hx'
    · have hqlt : q.2 < p.2 := not_le.mp hle
      refine List.pairwise_cons.mpr ⟨?_, hpair⟩
      intro x hx
      rcases List.mem_cons.mp hx with rfl | hx'
      · exact Or.inl hqlt
      · rcases hq x hx' with h | ⟨he, _⟩
        · exact Or.inl (h.trans hqlt)
        · exact Or.inl (he ▸ hqlt)

theorem sortDesc_pairwise_mem (s : List String) :
    ∀ (L acc : List (String × Nat)),
      L.Pairwise (fun a b => firstIdx a.1 s < firstIdx b.1 s) →
      acc.Pairwise (topwordsRank s) →
      (∀ q ∈ acc, ∀ x ∈ L, firstIdx q.1 s < firstIdx x.1 s) →
      (L.foldl (fun acc p => insertDesc p acc) acc).Pairwise (topwordsRank s) ∧
        ∀ x ∈ L.foldl (fun acc p => insertDesc p acc) acc,
          x ∈ acc ∨ x ∈ L := by
  intro L
  induction L with
  | nil => exact fun acc _ h _ => ⟨h, fun x hx => Or.inl hx⟩
  | cons p L ih =>
    intro acc hL hacc hbefore
    obtain ⟨hp, hL'⟩ := List.pairwise_cons.mp hL
    have hacc' : (insertDesc p acc).Pairwise (topwordsRank s) :=
      insertDesc_pairwise s p acc hacc
        (fun q hq _ => hbefore q hq p (List.mem_cons_self p L))
    have hbefore' : ∀ q ∈ insertDesc p acc, ∀ x ∈ L,
        firstIdx q.1 s < firstIdx x.1 s := by
      intro q hq x hx
      rcases (mem_insertDesc p q acc).mp hq with rfl | hq'
      · exact hp x hx
      · exact hbefore q hq' x (List.mem_cons_of_mem p hx)
    obtain ⟨h1, h2⟩ := ih (insertDesc p acc) hL' hacc' hbefore'
    rw [List.foldl_cons]
    refine ⟨h1, fun x hx => ?_⟩
    rcases h2 x hx with hx' | hx'
    · rcases (mem_insertDesc p x acc).mp hx' with rfl | hx''
      · exact Or.inr (List.mem_cons_self x L)
      · exact Or.inl hx''
    · exact Or.inr (List.mem_cons_of_mem p hx')

/-- C7: for every result collection, label filter and requested `top_n`, the
`get_top_words` table contains no token of length `≤ 2`, has at most `top_n`
entries, and is ordered by strictly descending count with ties broken by
first appearance in the counted token stream (stable-sort semantics). -/
theorem claim_C7_top_words (results : List AnalysisResult)
    (sentiment : Option String) (top_n : ℕ) :
    (∀ p ∈ get_top_words results sentiment top_n, 2 < p.1.length) ∧
      (get_top_words results sentiment top_n).length ≤ top_n ∧
      (get_top_words results sentiment top_n).Pairwise
        (topwordsRank (topwordsStream results sentiment)) := by
  have hform : get_top_words results sentiment top_n =
      (sortDesc (results.foldl (fun acc r =>
        if topwordsSkip sentiment r then acc
        else (tokenize r.cleaned_text).foldl
          (fun a w => if 2 < w.length then bumpWord a w else a) acc) [])).take
        top_n := rfl
  rw [hform, freq_fold_stream results sentiment []]
  have hinv := freq_fold_invariant (topwordsStream results sentiment)
    (topwordsStream results sentiment) [] [] rfl (by simp) (by simp) (by simp)
  have hLpair : ((topwordsStream results sentiment).foldl bumpWord
      []).Pairwise (fun a b => firstIdx a.1 (topwordsStream results sentiment)
        < firstIdx b.1 (topwordsStream results sentiment)) :=
    List.Pairwise.of_map Prod.fst (fun _ _ h => h) hinv.1
  have hsorted := sortDesc_pairwise_mem (topwordsStream results sentiment)
    ((topwordsStream results sentiment).foldl bumpWord []) [] hLpair
    (List.Pairwise.nil) (by simp)
  refine ⟨?_, List.length_take_le _ _, ?_⟩
  · intro p hp
    have hmem : p ∈ sortDesc ((topwordsStream results sentiment).foldl
        bumpWord []) := List.mem_of_mem_take hp
    rcases hsorted.2 p hmem with h | h
    · cases h
    · have hkey : p.1 ∈ ((topwordsStream results sentiment).foldl bumpWord
          []).map Prod.fst := List.mem_map_of_mem Prod.fst h
      have hs : p.1 ∈ topwordsStream results sentiment := by
        simpa using hinv.2 p.1 hkey
      have := List.mem_filter.mp hs
      simpa using this.2
  · exact List.Pairwise.sublist (List.take_sublist _ _) hsorted.1

theorem countP_label_partition (results : List AnalysisResult)
    (hlab : ∀ r ∈ results, r.sentiment_label = "positive" ∨
      r.sentiment_label = "negative" ∨ r.sentiment_label = "neutral") :
    results.countP (fun r => r.sentiment_label == "positive") +
      results.countP (fun r => r.sentiment_label == "negative") +
      results.countP (fun r => r.sentiment_label == "neutral") =
      results.length := by
  induction results with
  | nil => rfl
  | cons r rs ih =>
    have hr := hlab r (List.mem_cons_self r rs)
    have hrec := ih fun x hx => hlab x (List.mem_cons_of_mem r hx)
    rcases hr with h | h | h <;> simp [List.countP_cons, h] <;> omega

/-- C8: for every non-empty batch of results (whose labels, per the data
model, are among the three classes), the three reported percentages — each
the label count over the total, times 100, rounded to 1 decimal — sum to
`100.0` within the rounding tolerance `3 * 0.05`. -/
theorem claim_C8_pcts_sum_100 (results : List AnalysisResult)
    (hne : results ≠ [])
    (hlab : ∀ r ∈ results, r.sentiment_label = "positive" ∨
      r.sentiment_label = "negative" ∨ r.sentiment_label = "neutral") :
    |(get_sentiment_summary results).positive_pct +
      (get_sentiment_summary results).negative_pct +
      (get_sentiment_summary results).neutral_pct - 100| ≤ 3 / 20 := by
  have hempty : ¬(results.isEmpty = true) := by
    simpa [List.isEmpty_iff] using hne
  have hpos : (get_sentiment_summary results).positive_pct =
      round1 ((results.countP (fun r => r.sentiment_label == "positive") : ℚ) /
        results.length * 100) := by
    unfold get_sentiment_summary
    rw [if_neg hempty]
  have hneg : (get_sentiment_summary results).negative_pct =
      round1 ((results.countP (fun r => r.sentiment_label == "negative") : ℚ) /
        results.length * 100) := by
    unfold get_sentiment_summary
    rw [if_neg hempty]
  have hneu : (get_sentiment_summary results).neutral_pct =
      round1 ((results.countP (fun r => r.sentiment_label == "neutral") : ℚ) /
        results.length * 100) := by
    unfold get_sentiment_summary
    rw [if_neg hempty]
  rw [hpos, hneg, hneu]
  have hTpos : 0 < results.length := List.length_pos.mpr hne
  have hTQ : ((results.length : ℕ) : ℚ) ≠ 0 := by
    exact_mod_cast hTpos.ne'
  have hcast : ((results.countP (fun r => r.sentiment_label == "positive") : ℚ) +
      (results.countP (fun r => r.sentiment_label == "negative") : ℚ) +
      (results.countP (fun r => r.sentiment_label == "neutral") : ℚ)) =
      ((results.length : ℕ) : ℚ) := by
    exact_mod_cast countP_label_partition results hlab
  set x1 := (results.countP (fun r => r.sentiment_label == "positive") : ℚ) /
    results.length * 100 with hx1
  set x2 := (results.countP (fun r => r.sentiment_label == "negative") : ℚ) /
    results.length * 100 with hx2
  set x3 := (results.countP (fun r => r.sentiment_label == "neutral") : ℚ) /
    results.length * 100 with hx3
  have hx : x1 + x2 + x3 = 100 := by
    rw [hx1, hx2, hx3]
    field_simp
    linarith [hcast]
  have e1 : round1 x1 + round1 x2 + round1 x3 - 100 =
      (round1 x1 - x1) + ((round1 x2 - x2) + (round1 x3 - x3)) := by
    rw [← hx]
    ring
  rw [e1]
  have t1 := abs_add (round1 x1 - x1) ((round1 x2 - x2) + (round1 x3 - x3))
  have t2 := abs_add (round1 x2 - x2) (round1 x3 - x3)
  linarith [abs_round1_sub_le x1, abs_round1_sub_le x2, abs_round1_sub_le x3]

/-- C8 (witness): the bound at a concrete three-element batch with one
result per label. -/
theorem claim_C8_witness :
    demoResults ≠ [] ∧
      |(get_sentiment_summary demoResults).positive_pct +
        (get_sentiment_summary demoResults).negative_pct +
        (get_sentiment_summary demoResults).neutral_pct - 100| ≤ 3 / 20 :=
  ⟨by simp [demoResults], claim_C8_pcts_sum_100 demoResults
    (by simp [demoResults]) (by decide)⟩

/-! ### C10: internal consistency of analysis results -/

/-- C10: every analysis result is internally consistent — its label is
`classify_sentiment` of its score at the default thresholds, its cleaned
text is `clean_text` of its original text with slang normalization on, its
original text is the input unchanged, and `analyze_batch` maps `analyze_text`
over the inputs in order. -/
theorem claim_C10_result_consistency (lex : Lexicon) (texts : List PyVal)
    (v : PyVal) :
    analyze_batch lex texts = texts.map (analyze_text lex) ∧
      (analyze_text lex v).sentiment_label =
        classify_sentiment (analyze_text lex v).sentiment_score (1 / 10)
          (-(1 / 10)) ∧
      (analyze_text lex v).cleaned_text = clean_text v true ∧
      (analyze_text lex v).original_text = v := by
  refine ⟨?_, rfl, rfl, rfl⟩
  have key : ∀ (ts : List PyVal) (acc : List AnalysisResult),
      ts.foldl (fun rs t => rs ++ [analyze_text lex t]) acc =
        acc ++ ts.map (analyze_text lex) := by
    intro ts
    induction ts with
    | nil => simp
    | cons t ts ih => intro acc; simp [ih]
  simpa [analyze_batch] using key texts []

/-! ### C9 infrastructure: whitespace splitting and joining -/

theorem splitWsF_fuel : ∀ (f g : Nat) (l : List Char), l.length ≤ f →
    l.length ≤ g → splitWsF f l = splitWsF g l := by
  intro f
  induction f with
  | zero =>
    intro g l hf _
    rw [Nat.le_zero] at hf
    rw [List.length_eq_zero] at hf
    subst hf
    cases g <;> rfl
  | succ f ih =>
    intro g l hf hg
    cases l with
    | nil => cases g <;> rfl
    | cons c cs =>
      cases g with
      | zero => simp at hg
      | succ g =>
        show (if pyIsSpace c then splitWsF f cs else _) =
          (if pyIsSpace c then splitWsF g cs else _)
        by_cases hsp : pyIsSpace c
        · rw [if_pos hsp, if_pos hsp]
          exact ih g cs (Nat.le_of_succ_le_succ (by simpa using hf))
            (Nat.le_of_succ_le_succ (by simpa using hg))
        · rw [if_neg hsp, if_neg hsp]
          have hlen : (cs.dropWhile (fun d => !pyIsSpace d)).length ≤
              cs.length := (List.dropWhile_sublist _).length_le
          rw [ih g (cs.dropWhile (fun d => !pyIsSpace d))
            (hlen.trans (Nat.le_of_succ_le_succ (by simpa using hf)))
            (hlen.trans (Nat.le_of_succ_le_succ (by simpa using hg)))]

theorem splitWs_nil : splitWs [] = [] := rfl

theorem splitWs_cons_space {c : Char} (cs : List Char) (h : pyIsSpace c) :
    splitWs (c :: cs) = splitWs cs := by
  show splitWsF (c :: cs).length (c :: cs) = splitWsF cs.length cs
  rw [List.length_cons]
  show (if pyIsSpace c then splitWsF cs.length cs else _) = _
  rw [if_pos h]

theorem splitWs_cons_word {c : Char} (cs : List Char) (h : ¬pyIsSpace c) :
    splitWs (c :: cs) =
      (c :: cs.takeWhile (fun d => !pyIsSpace d)) ::
        splitWs (cs.dropWhile (fun d => !pyIsSpace d)) := by
  show splitWsF (c :: cs).length (c :: cs) = _
  rw [List.length_cons]
  show (if pyIsSpace c then splitWsF cs.length cs else
    (c :: cs.takeWhile (fun d => !pyIsSpace d)) ::
      splitWsF cs.length (cs.dropWhile (fun d => !pyIsSpace d))) = _
  rw [if_neg h]
  have hlen : (cs.dropWhile (fun d => !pyIsSpace d)).length ≤ cs.length :=
    (List.dropWhile_sublist _).length_le
  rw [splitWsF_fuel cs.length (cs.dropWhile (fun d => !pyIsSpace d)).length
    (cs.dropWhile (fun d => !pyIsSpace d)) hlen (Nat.le_refl _)]
  rfl

theorem splitWs_tokens : ∀ (l : List Char), ∀ t ∈ splitWs l,
    t ≠ [] ∧ ∀ c ∈ t, ¬(pyIsSpace c = true) ∧ c ∈ l := by
  suffices key : ∀ (n : Nat) (l : List Char), l.length ≤ n →
      ∀ t ∈ splitWs l, t ≠ [] ∧ ∀ c ∈ t, ¬(pyIsSpace c = true) ∧ c ∈ l by
    intro l
    exact key l.length l (Nat.le_refl _)
  intro n
  induction n with
  | zero =>
    intro l hl
    rw [Nat.le_zero, List.length_eq_zero] at hl
    subst hl
    intro t ht
    cases ht
  | succ n ih =>
    intro l hl
    match l with
    | [] => intro t ht; cases ht
    | c :: cs =>
      have hcs : cs.length ≤ n := Nat.le_of_succ_le_succ (by simpa using hl)
      by_cases hsp : pyIsSpace c
      · rw [splitWs_cons_space cs hsp]
        intro t ht
        obtain ⟨h1, h2⟩ := ih cs hcs t ht
        exact ⟨h1, fun x hx => ⟨(h2 x hx).1,
          List.mem_cons_of_mem c (h2 x hx).2⟩⟩
      · rw [splitWs_cons_word cs hsp]
        intro t ht
        rcases List.mem_cons.mp ht with rfl | ht'
        · refine ⟨by simp, fun x hx => ?_⟩
          rcases List.mem_cons.mp hx with rfl | hx'
          · exact ⟨hsp, List.mem_cons_self _ _⟩
          · have hmem := List.mem_takeWhile_imp hx'
            refine ⟨by simpa using hmem, List.mem_cons_of_mem c
              ((List.takeWhile_sublist _).subset hx')⟩
        · have hlen : (cs.dropWhile (fun d => !pyIsSpace d)).length ≤ n :=
            ((List.dropWhile_sublist _).length_le).trans hcs
          obtain ⟨h1, h2⟩ := ih _ hlen t ht'
          exact ⟨h1, fun x hx => ⟨(h2 x hx).1, List.mem_cons_of_mem c
            ((List.dropWhile_sublist _).subset ((h2 x hx).2))⟩⟩

theorem takeWhile_append_stop {p : Char → Bool} {y : Char}
    (xs ys : List Char) (hy : ¬(p y = true)) :
    (xs ++ y :: ys).takeWhile p = xs.takeWhile p := by
  induction xs with
  | nil => simp [List.takeWhile_cons, hy]
  | cons x xs ih =>
    by_cases hx : p x <;> simp [List.takeWhile_cons, hx, ih]

theorem dropWhile_append_stop {p : Char → Bool} {y : Char}
    (xs ys : List Char) (hy : ¬(p y = true)) :
    (xs ++ y :: ys).dropWhile p = xs.dropWhile p ++ y :: ys := by
  induction xs with
  | nil => simp [List.dropWhile_cons, hy]
  | cons x xs ih =>
    by_cases hx : p x <;> simp [List.dropWhile_cons, hx, ih]

theorem splitWs_append_space : ∀ (u v : List Char),
    splitWs (u ++ ' ' :: v) = splitWs u ++ splitWs v := by
  suffices key : ∀ (n : Nat) (u : List Char), u.length ≤ n →
      ∀ v, splitWs (u ++ ' ' :: v) = splitWs u ++ splitWs v by
    intro u
    exact key u.length u (Nat.le_refl _)
  intro n
  induction n with
  | zero =>
    intro u hu
    rw [Nat.le_zero, List.length_eq_zero] at hu
    subst hu
    intro v
    rw [List.nil_append, splitWs_nil, List.nil_append]
    exact splitWs_cons_space v (by decide)
  | succ n ih =>
    intro u hu
    match u with
    | [] =>
      intro v
      rw [List.nil_append, splitWs_nil, List.nil_append]
      exact splitWs_cons_space v (by decide)
    | c :: cs =>
      intro v
      have hcs : cs.length ≤ n := Nat.le_of_succ_le_succ (by simpa using hu)
      by_cases hsp : pyIsSpace c
      · rw [List.cons_append, splitWs_cons_space _ hsp,
          splitWs_cons_space cs hsp]
        exact ih cs hcs v
      · rw [List.cons_append, splitWs_cons_word _ hsp,
          splitWs_cons_word cs hsp]
        rw [takeWhile_append_stop cs v (by decide),
          dropWhile_append_stop cs v (by decide)]
        have hlen : (cs.dropWhile (fun d => !pyIsSpace d)).length ≤ n :=
          ((List.dropWhile_sublist _).length_le).trans hcs
        rw [ih _ hlen v, List.cons_append]

theorem takeWhile_eq_self_of (p : Char → Bool) :
    ∀ (l : List Char), (∀ c ∈ l, p c = true) → l.takeWhile p = l := by
  intro l
  induction l with
  | nil => intro _; rfl
  | cons c cs ih =>
    intro h
    rw [List.takeWhile_cons, if_pos (h c (List.mem_cons_self _ _))]
    rw [ih (fun x hx => h x (List.mem_cons_of_mem c hx))]

theorem dropWhile_eq_nil_of (p : Char → Bool) :
    ∀ (l : List Char), (∀ c ∈ l, p c = true) → l.dropWhile p = [] := by
  intro l
  induction l with
  | nil => intro _; rfl
  | cons c cs ih =>
    intro h
    rw [List.dropWhile_cons, if_pos (h c (List.mem_cons_self _ _))]
    exact ih fun x hx => h x (List.mem_cons_of_mem c hx)

theorem splitWs_single (t : List Char) (hne : t ≠ [])
    (hns : ∀ c ∈ t, ¬(pyIsSpace c = true)) : splitWs t = [t] := by
  match t, hne with
  | c :: cs, _ =>
    rw [splitWs_cons_word cs (hns c (List.mem_cons_self _ _))]
    rw [takeWhile_eq_self_of _ cs (fun x hx => by
      simpa using hns x (List.mem_cons_of_mem c hx))]
    rw [dropWhile_eq_nil_of _ cs (fun x hx => by
      simpa using hns x (List.mem_cons_of_mem c hx)), splitWs_nil]

theorem splitWs_token_front (t s : List Char) (hne : t ≠ [])
    (hns : ∀ c ∈ t, ¬(pyIsSpace c = true))
    (hs : s = [] ∨ ∃ d r, s = d :: r ∧ pyIsSpace d = true) :
    splitWs (t ++ s) = t :: splitWs s := by
  match t, hne with
  | c :: cs, _ =>
    rw [List.cons_append, splitWs_cons_word _
      (hns c (List.mem_cons_self _ _))]
    have hcs : ∀ x ∈ cs, (fun d => !pyIsSpace d) x = true := fun x hx => by
      simpa using hns x (List.mem_cons_of_mem c hx)
    rcases hs with rfl | ⟨d, r, rfl, hd⟩
    · rw [List.append_nil, takeWhile_eq_self_of _ cs hcs,
        dropWhile_eq_nil_of _ cs hcs, splitWs_nil]
    · rw [takeWhile_append_stop cs r (by simp [hd]),
        dropWhile_append_stop cs r (by simp [hd]),
        takeWhile_eq_self_of _ cs hcs, dropWhile_eq_nil_of _ cs hcs,
        List.nil_append]

theorem splitWs_joinSpace_flatten : ∀ us : List (List Char),
    splitWs (joinSpace us) = (us.map (fun u => splitWs u)).flatten := by
  intro us
  induction us with
  | nil => rfl
  | cons u us ih =>
    cases us with
    | nil => simp [joinSpace]
    | cons u' us' =>
      show splitWs (u ++ ' ' :: joinSpace (u' :: us')) = _
      rw [splitWs_append_space u (joinSpace (u' :: us')), ih]
      rfl

theorem splitWs_joinSpace_id (ts : List (List Char))
    (h : ∀ t ∈ ts, t ≠ [] ∧ ∀ c ∈ t, ¬(pyIsSpace c = true)) :
    splitWs (joinSpace ts) = ts := by
  rw [splitWs_joinSpace_flatten]
  induction ts with
  | nil => rfl
  | cons t ts ih =>
    rw [List.map_cons, List.flatten_cons,
      splitWs_single t (h t (List.mem_cons_self _ _)).1
        (h t (List.mem_cons_self _ _)).2,
      ih fun x hx => h x (List.mem_cons_of_mem t hx)]
    rfl

theorem mem_joinSpace : ∀ (ts : List (List Char)) (c : Char),
    c ∈ joinSpace ts → c = ' ' ∨ ∃ t ∈ ts, c ∈ t := by
  intro ts
  induction ts with
  | nil => intro c hc; cases hc
  | cons t ts ih =>
    cases ts with
    | nil =>
      intro c hc
      exact Or.inr ⟨t, List.mem_cons_self _ _, hc⟩
    | cons t' ts' =>
      intro c hc
      rcases List.mem_append.mp hc with hc' | hc'
      · exact Or.inr ⟨t, List.mem_cons_self _ _, hc'⟩
      · rcases List.mem_cons.mp hc' with rfl | hc''
        · exact Or.inl rfl
        · rcases ih c hc'' with h | ⟨u, hu, hcu⟩
          · exact Or.inl h
          · exact Or.inr ⟨u, List.mem_cons_of_mem t hu, hcu⟩

theorem joinSpace_head? : ∀ (ts : List (List Char)), (∀ t ∈ ts, t ≠ []) →
    ∀ c, (joinSpace ts).head? = some c → ∃ t ∈ ts, c ∈ t := by
  intro ts
  induction ts with
  | nil => intro _ c hc; cases hc
  | cons t ts ih =>
    intro hne c hc
    have htne : t ≠ [] := hne t (List.mem_cons_self _ _)
    cases ts with
    | nil =>
      refine ⟨t, List.mem_cons_self _ _, ?_⟩
      rw [show joinSpace [t] = t from rfl] at hc
      cases t with
      | nil => cases hc
      | cons a t' =>
        rw [List.head?_cons, Option.some_inj] at hc
        exact hc ▸ List.mem_cons_self _ _
    | cons t' ts' =>
      rw [show joinSpace (t :: t' :: ts') = t ++ ' ' :: joinSpace (t' :: ts')
        from rfl, List.head?_append] at hc
      cases t with
      | nil => exact absurd rfl htne
      | cons a u =>
        rw [List.head?_cons] at hc
        rw [show (some a).or (' ' :: joinSpace (t' :: ts')).head? = some a
          from rfl, Option.some_inj] at hc
        exact ⟨a :: u, List.mem_cons_self _ _, hc ▸ List.mem_cons_self _ _⟩

theorem joinSpace_ne_nil (ts : List (List Char)) (hne : ts ≠ [])
    (h : ∀ t ∈ ts, t ≠ []) : joinSpace ts ≠ [] := by
  match ts, hne with
  | t :: ts, _ =>
    have htne : t ≠ [] := h t (List.mem_cons_self _ _)
    cases ts with
    | nil => exact htne
    | cons t' ts' =>
      show t ++ ' ' :: joinSpace (t' :: ts') ≠ []
      cases t with
      | nil => exact absurd rfl htne
      | cons a u => simp

theorem joinSpace_getLast? : ∀ (ts : List (List Char)),
    (∀ t ∈ ts, t ≠ []) →
    ∀ c, (joinSpace ts).getLast? = some c → ∃ t ∈ ts, c ∈ t := by
  intro ts
  induction ts with
  | nil => intro _ c hc; cases hc
  | cons t ts ih =>
    intro hne c hc
    cases ts with
    | nil =>
      refine ⟨t, List.mem_cons_self _ _, ?_⟩
      exact List.mem_of_getLast?_eq_some hc
    | cons t' ts' =>
      have hts : ∀ x ∈ t' :: ts', x ≠ [] :=
        fun x hx => hne x (List.mem_cons_of_mem t hx)
      have hjn : joinSpace (t' :: ts') ≠ [] :=
        joinSpace_ne_nil (t' :: ts') (by simp) hts
      rw [show joinSpace (t :: t' :: ts') = t ++ ' ' :: joinSpace (t' :: ts')
        from rfl, List.getLast?_append] at hc
      rw [show (' ' :: joinSpace (t' :: ts')) = [' '] ++ joinSpace (t' :: ts')
        from rfl, List.getLast?_append] at hc
      rcases hj : (joinSpace (t' :: ts')).getLast? with _ | d
      · exact absurd (List.getLast?_eq_none_iff.mp hj) hjn
      · rw [hj] at hc
        rw [show (some d).or ([' '].getLast?) = some d from rfl] at hc
        rw [show (some d).or (t.getLast?) = some d from rfl,
          Option.some_inj] at hc
        obtain ⟨u, hu, hcu⟩ := ih hts c (hc ▸ hj)
        exact ⟨u, List.mem_cons_of_mem t hu, hcu⟩

theorem pyStrip_joinSpace_id (ts : List (List Char))
    (h : ∀ t ∈ ts, t ≠ [] ∧ ∀ c ∈ t, ¬(pyIsSpace c = true)) :
    pyStrip (joinSpace ts) = joinSpace ts := by
  have h1 : (joinSpace ts).dropWhile pyIsSpace = joinSpace ts := by
    cases hj : joinSpace ts with
    | nil => rfl
    | cons a rest =>
      have ha : (joinSpace ts).head? = some a := by rw [hj]; rfl
      obtain ⟨t, ht, hat⟩ := joinSpace_head? ts (fun t ht => (h t ht).1) a ha
      rw [List.dropWhile_cons, if_neg (by simpa using (h t ht).2 a hat)]
  have h2 : (joinSpace ts).reverse.dropWhile pyIsSpace =
      (joinSpace ts).reverse := by
    cases hj : (joinSpace ts).reverse with
    | nil => rfl
    | cons a rest =>
      have ha : (joinSpace ts).getLast? = some a := by
        rw [List.getLast?_eq_head?_reverse, hj]
        rfl
      obtain ⟨t, ht, hat⟩ :=
        joinSpace_getLast? ts (fun t ht => (h t ht).1) a ha
      rw [List.dropWhile_cons, if_neg (by simpa using (h t ht).2 a hat)]
  unfold pyStrip
  rw [h1, h2, List.reverse_reverse]

/-! ### C9 infrastructure: the first six cleaning steps fix clean text -/

theorem cleanChar_word_or_space {c : Char} (h : cleanChar c = true) :
    isWordChar c = true ∨ pyIsSpace c = true := by
  simp only [cleanChar, isDigitChar, pyIsSpace, isWordChar, Bool.or_eq_true,
    Bool.and_eq_true, decide_eq_true_eq] at h ⊢
  omega

theorem cleanChar_toNat_le {c : Char} (h : cleanChar c = true) :
    c.toNat ≤ 122 := by
  simp only [cleanChar, isDigitChar, pyIsSpace, Bool.or_eq_true,
    Bool.and_eq_true, decide_eq_true_eq] at h
  omega

theorem pyLower_eq_self {c : Char} (h : cleanChar c = true) :
    pyLower c = c := by
  have := cleanChar_toNat_le h
  have hlow : ¬(65 ≤ c.toNat ∧ c.toNat ≤ 90) := by
    simp only [cleanChar, isDigitChar, pyIsSpace, Bool.or_eq_true,
      Bool.and_eq_true, decide_eq_true_eq] at h
    omega
  unfold pyLower
  rw [if_neg hlow]

theorem map_pyLower_id (l : List Char) (h : ∀ c ∈ l, cleanChar c = true) :
    l.map pyLower = l := by
  have step : ∀ c ∈ l, pyLower c = (fun c : Char => c) c :=
    fun c hc => pyLower_eq_self (h c hc)
  simpa using List.map_congr_left step

theorem isEmoji_eq_false {c : Char} (h : cleanChar c = true) :
    isEmoji c = false := by
  have := cleanChar_toNat_le h
  simp only [isEmoji, Bool.or_eq_false_iff, Bool.and_eq_false_iff,
    decide_eq_false_iff_not]
  omega

theorem remove_emojis_id (l : List Char) (h : ∀ c ∈ l, cleanChar c = true) :
    remove_emojis l = l := by
  unfold remove_emojis
  rw [List.filter_eq_self]
  intro c hc
  rw [isEmoji_eq_false (h c hc)]
  rfl

theorem punctToSpace_id (l : List Char) (h : ∀ c ∈ l, cleanChar c = true) :
    punctToSpace l = l := by
  unfold punctToSpace
  have step : ∀ c ∈ l,
      (if isWordChar c || pyIsSpace c then c else ' ') =
        (fun c : Char => c) c := by
    intro c hc
    rcases cleanChar_word_or_space (h c hc) with hw | hs
    · rw [if_pos (by rw [hw]; rfl)]
    · rw [if_pos (by rw [hs]; simp)]
  simpa using List.map_congr_left step

theorem dropPat_mem : ∀ (pat l r : List Char), dropPat pat l = some r →
    ∀ c ∈ pat, c ∈ l := by
  intro pat
  induction pat with
  | nil => intro l r _ c hc; cases hc
  | cons p ps ih =>
    intro l r hdrop c hc
    cases l with
    | nil => cases hdrop
    | cons a l' =>
      rw [dropPat] at hdrop
      by_cases hap : a = p
      · rw [if_pos hap] at hdrop
        rcases List.mem_cons.mp hc with rfl | hc'
        · exact hap ▸ List.mem_cons_self a l'
        · exact List.mem_cons_of_mem a (ih l' r hdrop c hc')
      · rw [if_neg hap] at hdrop
        cases hdrop

theorem isUrlStart_eq_false (l : List Char)
    (h : ∀ c ∈ l, cleanChar c = true) : isUrlStart l = false := by
  have hcolon : ':' ∉ l := fun hm => by
    have := h ':' hm
    simp [cleanChar, isDigitChar, pyIsSpace] at this
  have hdot : '.' ∉ l := fun hm => by
    have := h '.' hm
    simp [cleanChar, isDigitChar, pyIsSpace] at this
  unfold isUrlStart
  rcases h1 : dropPat "http://".data l with _ | r
  · rcases h2 : dropPat "https://".data l with _ | r
    · rcases h3 : dropPat "www.".data l with _ | r
      · rfl
      · exact absurd (dropPat_mem _ l r h3 '.' (by decide)) hdot
    · exact absurd (dropPat_mem _ l r h2 ':' (by decide)) hcolon
  · exact absurd (dropPat_mem _ l r h1 ':' (by decide)) hcolon

theorem remove_urls_id (l : List Char) (h : ∀ c ∈ l, cleanChar c = true) :
    remove_urls l = l := by
  show rmUrlGo false l = l
  induction l with
  | nil => rfl
  | cons c cs ih =>
    rw [rmUrlGo]
    rw [show (false && !pyIsSpace c) = false from rfl, Bool.false_or]
    rw [isUrlStart_eq_false (c :: cs) h, if_neg (by simp)]
    rw [ih fun x hx => h x (List.mem_cons_of_mem c hx)]

theorem remove_mentions_id (l : List Char)
    (h : ∀ c ∈ l, cleanChar c = true) : remove_mentions l = l := by
  show rmMenGo false l = l
  induction l with
  | nil => rfl
  | cons c cs ih =>
    have hat : c ≠ '@' := fun he => by
      have := h c (List.mem_cons_self c cs)
      rw [he] at this
      simp [cleanChar, isDigitChar, pyIsSpace] at this
    rw [rmMenGo]
    rw [show (false && isWordChar c) = false from rfl, if_neg (by simp)]
    rw [if_neg (by simp [hat])]
    rw [ih fun x hx => h x (List.mem_cons_of_mem c hx)]

theorem unwrapHashtags_id (l : List Char)
    (h : ∀ c ∈ l, cleanChar c = true) : unwrapHashtags l = l := by
  induction l with
  | nil => rfl
  | cons c cs ih =>
    have hh : c ≠ '#' := fun he => by
      have := h c (List.mem_cons_self c cs)
      rw [he] at this
      simp [cleanChar, isDigitChar, pyIsSpace] at this
    rw [unwrapHashtags, if_neg (by simp [hh])]
    rw [ih fun x hx => h x (List.mem_cons_of_mem c hx)]

/-! ### C9 infrastructure: the number-removal scanner -/

theorem pyIsSpace_not_digit {c : Char} (h : pyIsSpace c = true) :
    isDigitChar c = false := by
  simp only [pyIsSpace, isDigitChar, Bool.or_eq_true, decide_eq_true_eq]
    at h
  simp only [isDigitChar, Bool.and_eq_false_iff, decide_eq_false_iff_not]
  omega

theorem pyIsSpace_not_word {c : Char} (h : pyIsSpace c = true) :
    isWordChar c = false := by
  simp only [pyIsSpace, Bool.or_eq_true, decide_eq_true_eq] at h
  simp only [isWordChar, Bool.or_eq_false_iff, Bool.and_eq_false_iff,
    decide_eq_false_iff_not]
  omega

theorem isDigitChar_word {c : Char} (h : isDigitChar c = true) :
    isWordChar c = true := by
  simp only [isDigitChar, Bool.and_eq_true, decide_eq_true_eq] at h
  simp only [isWordChar, Bool.or_eq_true, Bool.and_eq_true,
    decide_eq_true_eq]
  omega

theorem isWordChar_not_space {c : Char} (h : isWordChar c = true) :
    pyIsSpace c = false := by
  simp only [isWordChar, Bool.or_eq_true, Bool.and_eq_true,
    decide_eq_true_eq] at h
  simp only [pyIsSpace, Bool.or_eq_false_iff, decide_eq_false_iff_not]
  omega

theorem rmNumsGo_space {c : Char} (h : pyIsSpace c = true) (d p : Bool)
    (cs : List Char) : rmNumsGo d p (c :: cs) = c :: rmNumsGo false false cs := by
  cases d
  · show (if isDigitChar c && !p && boundaryAfterRun cs then _ else
      c :: rmNumsGo false (isWordChar c) cs) = _
    rw [pyIsSpace_not_digit h, pyIsSpace_not_word h]
    rfl
  · show (if isDigitChar c then _ else c :: rmNumsGo false (isWordChar c) cs)
      = _
    rw [pyIsSpace_not_digit h, pyIsSpace_not_word h]
    rfl

theorem rmNumsGo_reset (s : List Char)
    (hs : s = [] ∨ ∃ d r, s = d :: r ∧ pyIsSpace d = true) (b p : Bool) :
    rmNumsGo b p s = rmNumsGo false false s := by
  rcases hs with rfl | ⟨d, r, rfl, hd⟩
  · cases b <;> rfl
  · rw [rmNumsGo_space hd, rmNumsGo_space hd]

theorem rmNumsGo_pass : ∀ (u : List Char), (∀ c ∈ u, isWordChar c = true) →
    ∀ s, rmNumsGo false true (u ++ s) = u ++ rmNumsGo false true s := by
  intro u
  induction u with
  | nil => intro _ s; rfl
  | cons c u ih =>
    intro h s
    show (if isDigitChar c && !true && boundaryAfterRun (u ++ s) then _
      else c :: rmNumsGo false (isWordChar c) (u ++ s)) = _
    rw [show (isDigitChar c && !true && boundaryAfterRun (u ++ s)) = false by
      simp]
    rw [if_neg (by simp), h c (List.mem_cons_self _ _),
      ih (fun x hx => h x (List.mem_cons_of_mem c hx)) s]
    rfl

theorem dropWhile_head_false {p : Char → Bool} {l : List Char} {d : Char}
    {r : List Char} (h : l.dropWhile p = d :: r) : p d = false := by
  have := List.head?_dropWhile_not p l
  rw [h] at this
  exact this

theorem dropWhile_append_ne_nil {p : Char → Bool} :
    ∀ (a b : List Char), a.dropWhile p ≠ [] →
      (a ++ b).dropWhile p = a.dropWhile p ++ b := by
  intro a
  induction a with
  | nil => intro b h; exact absurd rfl h
  | cons x a ih =>
    intro b h
    by_cases hx : p x
    · rw [List.cons_append, List.dropWhile_cons_of_pos hx,
        List.dropWhile_cons_of_pos hx]
      rw [List.dropWhile_cons_of_pos hx] at h
      exact ih b h
    · rw [List.cons_append, List.dropWhile_cons_of_neg hx,
        List.dropWhile_cons_of_neg hx, List.cons_append]

theorem rmNumsGo_keep (t : List Char) (hne : t ≠ [])
    (hword : ∀ c ∈ t, isWordChar c = true)
    (hnd : ¬(t.all isDigitChar = true)) (s : List Char)
    (hs : s = [] ∨ ∃ d r, s = d :: r ∧ pyIsSpace d = true) :
    rmNumsGo false false (t ++ s) = t ++ rmNumsGo false false s := by
  match t, hne with
  | c :: t', _ =>
    have hw : isWordChar c = true := hword c (List.mem_cons_self _ _)
    have htail : ∀ x ∈ t', isWordChar x = true :=
      fun x hx => hword x (List.mem_cons_of_mem c hx)
    have hpass : rmNumsGo false true (t' ++ s) =
        t' ++ rmNumsGo false true s := rmNumsGo_pass t' htail s
    have hreset : rmNumsGo false true s = rmNumsGo false false s :=
      rmNumsGo_reset s hs false true
    have hcond : (isDigitChar c && !false && boundaryAfterRun (t' ++ s)) =
        false := by
      by_cases hd : isDigitChar c
      · have hnall : ¬(t'.all isDigitChar = true) := by
          intro hall
          exact hnd (by simp_all [List.all_cons])
        have hdw : t'.dropWhile isDigitChar ≠ [] := by
          intro hnil
          exact hnall (by
            rw [List.all_eq_true]
            exact List.dropWhile_eq_nil_iff.mp hnil)
        rcases hhd : t'.dropWhile isDigitChar with _ | ⟨d, r⟩
        · exact absurd hhd hdw
        · have hd_word : isWordChar d = true := htail d
            ((List.dropWhile_sublist _).subset (hhd ▸ List.mem_cons_self d r))
          have : boundaryAfterRun (t' ++ s) = false := by
            unfold boundaryAfterRun
            rw [dropWhile_append_ne_nil t' s hdw, hhd]
            simp [hd_word]
          rw [this, hd]
          rfl
      · simp [hd]
    show (if isDigitChar c && !false && boundaryAfterRun (t' ++ s) then _
      else c :: rmNumsGo false (isWordChar c) (t' ++ s)) = _
    rw [hcond, if_neg (by simp), hw, hpass, hreset]
    rfl

theorem rmNumsGo_delrun : ∀ (u : List Char), (∀ c ∈ u, isDigitChar c = true) →
    ∀ s, (s = [] ∨ ∃ d r, s = d :: r ∧ pyIsSpace d = true) →
    rmNumsGo true true (u ++ s) = rmNumsGo false false s := by
  intro u
  induction u with
  | nil =>
    intro _ s hs
    exact rmNumsGo_reset s hs true true
  | cons c u ih =>
    intro h s hs
    show (if isDigitChar c then rmNumsGo true true (u ++ s)
      else c :: rmNumsGo false (isWordChar c) (u ++ s)) = _
    rw [h c (List.mem_cons_self _ _), if_pos rfl,
      ih (fun x hx => h x (List.mem_cons_of_mem c hx)) s hs]

theorem rmNumsGo_del (t : List Char) (hne : t ≠ [])
    (hdig : ∀ c ∈ t, isDigitChar c = true) (s : List Char)
    (hs : s = [] ∨ ∃ d r, s = d :: r ∧ pyIsSpace d = true) :
    rmNumsGo false false (t ++ s) = rmNumsGo false false s := by
  match t, hne with
  | c :: t', _ =>
    have hd : isDigitChar c = true := hdig c (List.mem_cons_self _ _)
    have htail : ∀ x ∈ t', isDigitChar x = true :=
      fun x hx => hdig x (List.mem_cons_of_mem c hx)
    have hdw : (t' ++ s).dropWhile isDigitChar = s := by
      rw [List.dropWhile_append_of_pos htail]
      rcases hs with rfl | ⟨d, r, rfl, hds⟩
      · rfl
      · exact List.dropWhile_cons_of_neg (by simp [pyIsSpace_not_digit hds])
    have hb : boundaryAfterRun (t' ++ s) = true := by
      unfold boundaryAfterRun
      rw [hdw]
      rcases hs with rfl | ⟨d, r, rfl, hds⟩
      · rfl
      · simp [pyIsSpace_not_word hds]
    show (if isDigitChar c && !false && boundaryAfterRun (t' ++ s) then
      rmNumsGo true true (t' ++ s) else _) = _
    rw [hd, hb, if_pos (by rfl), rmNumsGo_delrun t' htail s hs]

theorem rmNums_splitWs : ∀ (l : List Char),
    (∀ c ∈ l, isWordChar c = true ∨ pyIsSpace c = true) →
    splitWs (rmNumsGo false false l) =
      (splitWs l).filter (fun t => !t.all isDigitChar) := by
  suffices key : ∀ (n : Nat) (l : List Char), l.length ≤ n →
      (∀ c ∈ l, isWordChar c = true ∨ pyIsSpace c = true) →
      splitWs (rmNumsGo false false l) =
        (splitWs l).filter (fun t => !t.all isDigitChar) by
    intro l
    exact key l.length l (Nat.le_refl _)
  intro n
  induction n with
  | zero =>
    intro l hl _
    rw [Nat.le_zero, List.length_eq_zero] at hl
    subst hl
    rfl
  | succ n ih =>
    intro l hl hws
    match l with
    | [] => rfl
    | c :: cs =>
      have hcs : cs.length ≤ n := Nat.le_of_succ_le_succ (by simpa using hl)
      have hwcs : ∀ x ∈ cs, isWordChar x = true ∨ pyIsSpace x = true :=
        fun x hx => hws x (List.mem_cons_of_mem c hx)
      by_cases hsp : pyIsSpace c
      · rw [rmNumsGo_space hsp, splitWs_cons_space _ hsp,
          splitWs_cons_space cs hsp]
        exact ih cs hcs hwcs
      · have hcw : isWordChar c = true := by
          rcases hws c (List.mem_cons_self _ _) with h | h
          · exact h
          · exact absurd h hsp
        set t := c :: cs.takeWhile (fun d => !pyIsSpace d) with ht
        set rest := cs.dropWhile (fun d => !pyIsSpace d) with hrest
        have hsplit : c :: cs = t ++ rest := by
          rw [ht, hrest, List.cons_append,
            List.takeWhile_append_dropWhile]
        have htne : t ≠ [] := by simp [ht]
        have htword : ∀ x ∈ t, isWordChar x = true := by
          intro x hx
          rw [ht] at hx
          rcases List.mem_cons.mp hx with rfl | hx'
          · exact hcw
          · have h1 := List.mem_takeWhile_imp hx'
            have h2 := (List.takeWhile_sublist _).subset hx'
            rcases hwcs x h2 with h | h
            · exact h
            · rw [h] at h1
              simp at h1
        have hrform : rest = [] ∨ ∃ d r, rest = d :: r ∧ pyIsSpace d = true := by
          rcases hr : rest with _ | ⟨d, r⟩
          · exact Or.inl rfl
          · refine Or.inr ⟨d, r, rfl, ?_⟩
            have := dropWhile_head_false (hrest ▸ hr)
            simpa using this
        have hrlen : rest.length ≤ n := by
          rw [hrest]
          exact ((List.dropWhile_sublist _).length_le).trans hcs
        have hwrest : ∀ x ∈ rest, isWordChar x = true ∨ pyIsSpace x = true := by
          intro x hx
          rw [hrest] at hx
          exact hwcs x ((List.dropWhile_sublist _).subset hx)
        have hsw : splitWs (c :: cs) = t :: splitWs rest := by
          rw [splitWs_cons_word cs hsp, ht, hrest]
        by_cases hall : t.all isDigitChar = true
        · have hdig : ∀ x ∈ t, isDigitChar x = true := List.all_eq_true.mp hall
          rw [show rmNumsGo false false (c :: cs) =
              rmNumsGo false false (t ++ rest) by rw [← hsplit]]
          rw [rmNumsGo_del t htne hdig rest hrform]
          rw [ih rest hrlen hwrest, hsw, List.filter_cons,
            if_neg (by simp [hall])]
        · rw [show rmNumsGo false false (c :: cs) =
              rmNumsGo false false (t ++ rest) by rw [← hsplit]]
          rw [rmNumsGo_keep t htne htword hall rest hrform]
          have hrm_rest : rmNumsGo false false rest = [] ∨
              ∃ d r, rmNumsGo false false rest = d :: r ∧
                pyIsSpace d = true := by
            rcases hrform with hr | ⟨d, r, hr, hd⟩
            · rw [hr]
              exact Or.inl rfl
            · rw [hr, rmNumsGo_space hd]
              exact Or.inr ⟨d, rmNumsGo false false r, rfl, hd⟩
          rw [splitWs_token_front t (rmNumsGo false false rest) htne
            (fun x hx => by simp [isWordChar_not_space (htword x hx)])
            hrm_rest]
          rw [ih rest hrlen hwrest, hsw, List.filter_cons,
            if_pos (by simp [hall])]

theorem rmNums_joinSpace_id : ∀ (ts : List (List Char)),
    (∀ t ∈ ts, t ≠ [] ∧ (∀ c ∈ t, isWordChar c = true) ∧
      ¬(t.all isDigitChar = true)) →
    rmNumsGo false false (joinSpace ts) = joinSpace ts := by
  intro ts
  induction ts with
  | nil => intro _; rfl
  | cons t ts ih =>
    intro h
    obtain ⟨h1, h2, h3⟩ := h t (List.mem_cons_self _ _)
    cases ts with
    | nil =>
      show rmNumsGo false false t = t
      have hk := rmNumsGo_keep t h1 h2 h3 [] (Or.inl rfl)
      rw [show rmNumsGo false false ([] : List Char) = [] from rfl,
        List.append_nil] at hk
      simpa using hk
    | cons t' ts' =>
      show rmNumsGo false false (t ++ ' ' :: joinSpace (t' :: ts')) = _
      rw [rmNumsGo_keep t h1 h2 h3 (' ' :: joinSpace (t' :: ts'))
        (Or.inr ⟨' ', joinSpace (t' :: ts'), rfl, by decide⟩)]
      rw [rmNumsGo_space (by decide)]
      rw [ih fun x hx => h x (List.mem_cons_of_mem t hx)]
      rfl

/-! ### C9 infrastructure: the slang table -/

theorem lookup_mem {a b : String} :
    ∀ l : List (String × String), l.lookup a = some b → (a, b) ∈ l := by
  intro l
  induction l with
  | nil => intro h; cases h
  | cons kv l ih =>
    rcases kv with ⟨k, v⟩
    intro h
    cases hak : (a == k) with
    | true =>
      simp only [List.lookup, hak, Option.some_inj] at h
      rw [eq_of_beq hak, ← h]
      exact List.mem_cons_self _ _
    | false =>
      simp only [List.lookup, hak] at h
      exact List.mem_cons_of_mem _ (ih h)

/-- Every hyphen-free `SLANG_DICT` value splits into nonempty
lowercase-letter tokens fixed by slang normalization (checked over the
concrete table). -/
theorem slangTable_ok :
    SLANG_DICT.all (fun kv => slangValueOk kv.2) = true := by decide

theorem slang_value_words {k v : String} (hkv : (k, v) ∈ SLANG_DICT)
    (hh : v.data.contains '-' = false) :
    ∀ t ∈ splitWs v.data, t ≠ [] ∧
      (∀ c ∈ t, 97 ≤ c.toNat ∧ c.toNat ≤ 122) ∧ slangWord t = t := by
  have hall := List.all_eq_true.mp slangTable_ok (k, v) hkv
  simp only [slangValueOk] at hall
  rw [hh, Bool.false_or] at hall
  intro t ht
  have hthis := List.all_eq_true.mp hall t ht
  simp only [Bool.and_eq_true, beq_iff_eq, Bool.not_eq_true'] at hthis
  obtain ⟨⟨h1, h2⟩, h3⟩ := hthis
  refine ⟨fun he => by rw [he] at h1; simp at h1, ?_, h3⟩
  intro c hc
  have := List.all_eq_true.mp h2 c hc
  simpa using this

theorem final_token_good (x : List Char)
    (hch : ∀ c ∈ x, cleanChar c = true)
    (hsl : ∀ t ∈ splitWs x, slangSafe t = true) :
    ∀ u ∈ ((((splitWs x).filter (fun t => !t.all isDigitChar)).map
      (fun t => splitWs (slangWord t))).flatten),
      u ≠ [] ∧ (∀ c ∈ u, cleanChar c = true ∧ ¬(pyIsSpace c = true) ∧
        isWordChar c = true) ∧ ¬(u.all isDigitChar = true) ∧
        slangWord u = u := by
  intro u hu
  rw [List.mem_flatten] at hu
  obtain ⟨piece, hpiece, hupiece⟩ := hu
  rw [List.mem_map] at hpiece
  obtain ⟨t, htf, rfl⟩ := hpiece
  rw [List.mem_filter] at htf
  obtain ⟨htx, htdig⟩ := htf
  obtain ⟨htne, htchars⟩ := splitWs_tokens x t htx
  have htclean : ∀ c ∈ t, cleanChar c = true :=
    fun c hc => hch c (htchars c hc).2
  have htns : ∀ c ∈ t, ¬(pyIsSpace c = true) :=
    fun c hc => (htchars c hc).1
  have hmaplower : t.map pyLower = t := map_pyLower_id t htclean
  rcases hlk : SLANG_DICT.lookup (String.mk t) with _ | v
  · have hsw : slangWord t = t := by
      unfold slangWord
      rw [hmaplower, hlk]
    rw [hsw, splitWs_single t htne htns] at hupiece
    rw [List.mem_singleton.mp hupiece]
    refine ⟨htne, ?_, by simpa using htdig, by
      unfold slangWord
      rw [hmaplower, hlk]⟩
    intro c hc
    exact ⟨htclean c hc, htns c hc, by
      rcases cleanChar_word_or_space (htclean c hc) with h | h
      · exact h
      · exact absurd h (htns c hc)⟩
  · have hsafe := hsl t htx
    unfold slangSafe at hsafe
    rw [hmaplower, hlk] at hsafe
    have hcontains : v.data.contains '-' = false := by
      simpa using hsafe
    have hsw : slangWord t = v.data := by
      unfold slangWord
      rw [hmaplower, hlk]
    rw [hsw] at hupiece
    obtain ⟨h1, h2, h3⟩ := slang_value_words
      (lookup_mem SLANG_DICT hlk) hcontains u hupiece
    refine ⟨h1, ?_, ?_, h3⟩
    · intro c hc
      have hb := h2 c hc
      refine ⟨?_, ?_, ?_⟩
      · simp only [cleanChar, Bool.or_eq_true, Bool.and_eq_true,
          decide_eq_true_eq]
        omega
      · simp only [pyIsSpace, Bool.or_eq_true, decide_eq_true_eq]
        omega
      · simp only [isWordChar, Bool.or_eq_true, Bool.and_eq_true,
          decide_eq_true_eq]
        omega
    · intro hall
      match u, h1 with
      | c :: u', _ =>
        have hc := h2 c (List.mem_cons_self _ _)
        have := List.all_eq_true.mp hall c (List.mem_cons_self _ _)
        simp only [isDigitChar, Bool.and_eq_true, decide_eq_true_eq] at this
        omega

/-! ### C9 infrastructure: assembling the pipeline -/

theorem cleanPipe_eq_of_clean (x : List Char)
    (hch : ∀ c ∈ x, cleanChar c = true) :
    cleanPipe true x = pyStrip (joinSpace (splitWs (joinSpace ((splitWs
      (rmNumsGo false false x)).map slangWord)))) := by
  have hform : cleanPipe true x = pyStrip (remove_extra_whitespace
      (normalize_slang (remove_numbers (punctToSpace (remove_emojis
        (unwrapHashtags (remove_mentions (remove_urls
          (x.map pyLower))))))))) := rfl
  rw [hform, map_pyLower_id x hch, remove_urls_id x hch,
    remove_mentions_id x hch, unwrapHashtags_id x hch,
    remove_emojis_id x hch, punctToSpace_id x hch]
  rfl

theorem cleanPipe_normal (x : List Char)
    (hch : ∀ c ∈ x, cleanChar c = true)
    (hsl : ∀ t ∈ splitWs x, slangSafe t = true) :
    cleanPipe true x = joinSpace ((((splitWs x).filter
      (fun t => !t.all isDigitChar)).map
        (fun t => splitWs (slangWord t))).flatten) := by
  rw [cleanPipe_eq_of_clean x hch]
  rw [rmNums_splitWs x (fun c hc => cleanChar_word_or_space (hch c hc))]
  rw [splitWs_joinSpace_flatten]
  rw [List.map_map]
  have hgood := final_token_good x hch hsl
  have hmapeq : ((splitWs x).filter (fun t => !t.all isDigitChar)).map
      ((fun u => splitWs u) ∘ slangWord) =
      ((splitWs x).filter (fun t => !t.all isDigitChar)).map
        (fun t => splitWs (slangWord t)) := rfl
  rw [hmapeq]
  exact pyStrip_joinSpace_id _ fun u hu =>
    ⟨(hgood u hu).1, fun c hc => ((hgood u hu).2.1 c hc).2.1⟩

theorem cleanPipe_fixed (ts : List (List Char))
    (hgood : ∀ u ∈ ts, u ≠ [] ∧ (∀ c ∈ u, cleanChar c = true ∧
      ¬(pyIsSpace c = true) ∧ isWordChar c = true) ∧
      ¬(u.all isDigitChar = true) ∧ slangWord u = u) :
    cleanPipe true (joinSpace ts) = joinSpace ts := by
  have hch : ∀ c ∈ joinSpace ts, cleanChar c = true := by
    intro c hc
    rcases mem_joinSpace ts c hc with rfl | ⟨t, ht, hct⟩
    · decide
    · exact ((hgood t ht).2.1 c hct).1
  have hnospace : ∀ t ∈ ts, t ≠ [] ∧ ∀ c ∈ t, ¬(pyIsSpace c = true) :=
    fun t ht => ⟨(hgood t ht).1, fun c hc => ((hgood t ht).2.1 c hc).2.1⟩
  rw [cleanPipe_eq_of_clean _ hch]
  rw [rmNums_joinSpace_id ts (fun t ht => ⟨(hgood t ht).1,
    fun c hc => ((hgood t ht).2.1 c hc).2.2, (hgood t ht).2.2.1⟩)]
  rw [splitWs_joinSpace_id ts hnospace]
  have hmap : ts.map slangWord = ts := by
    have step : ∀ t ∈ ts, slangWord t = (fun t : List Char => t) t :=
      fun t ht => (hgood t ht).2.2.2
    simpa using List.map_congr_left step
  rw [hmap, splitWs_joinSpace_id ts hnospace]
  exact pyStrip_joinSpace_id ts hnospace

/-! ### C9: idempotence of cleaning on already-clean text -/

/-- C9 (counterexample): `"org2"` satisfies the claim's hypothesis as stated
— lowercase, no punctuation, URLs or mentions, and its only token is matched
slang, so there is no unmatched slang token — yet cleaning is not
idempotent: the slang expansion `orang-orang` introduces a hyphen, which
the second clean turns into a space. -/
theorem claim_C9_counterexample :
    ("org2".data.all cleanChar = true) ∧
      ((splitWs "org2".data).all
        (fun t => (SLANG_DICT.lookup (String.mk (t.map pyLower))).isSome)
        = true) ∧
      clean_text (.str "org2") true = "orang-orang" ∧
      clean_text (.str (clean_text (.str "org2") true)) true =
        "orang orang" ∧
      clean_text (.str (clean_text (.str "org2") true)) true ≠
        clean_text (.str "org2") true :=
  ⟨by decide, by decide, by decide, by decide, by decide⟩

/-- C9 (amended): for every already-clean string — lowercase ASCII letters,
digits, underscores and whitespace only (hence no punctuation, URLs or
mentions), whose slang-matched tokens all expand without introducing
punctuation (no hyphenated expansion such as `org2`/`apa2`/`lg2`/`btw`) —
cleaning is idempotent: `clean (clean x) = clean x`. -/
theorem claim_C9_clean_idempotent (x : String)
    (hch : x.data.all cleanChar = true)
    (hsl : (splitWs x.data).all slangSafe = true) :
    clean_text (.str (clean_text (.str x) true)) true =
      clean_text (.str x) true := by
  have hch' : ∀ c ∈ x.data, cleanChar c = true := List.all_eq_true.mp hch
  have hsl' : ∀ t ∈ splitWs x.data, slangSafe t = true :=
    List.all_eq_true.mp hsl
  by_cases hx : x = ""
  · subst hx
    rfl
  · have houter : clean_text (.str x) true =
        String.mk (cleanPipe true x.data) := by
      show (if x = "" then "" else String.mk (cleanPipe true x.data)) = _
      rw [if_neg hx]
    rw [houter, cleanPipe_normal x.data hch' hsl']
    have hgood := final_token_good x.data hch' hsl'
    set ts := ((((splitWs x.data).filter
      (fun t => !t.all isDigitChar)).map
        (fun t => splitWs (slangWord t))).flatten) with hts
    by_cases hnil : joinSpace ts = []
    · rw [hnil]
      rfl
    · have hne : ¬(String.mk (joinSpace ts) = "") := by
        intro he
        apply hnil
        have hdata : (String.mk (joinSpace ts)).data = ("" : String).data :=
          by rw [he]
        simpa using hdata
      have hinner : clean_text (.str (String.mk (joinSpace ts))) true =
          String.mk (cleanPipe true (String.mk (joinSpace ts)).data) := by
        show (if String.mk (joinSpace ts) = "" then "" else
          String.mk (cleanPipe true (String.mk (joinSpace ts)).data)) = _
        rw [if_neg hne]
      rw [hinner, show (String.mk (joinSpace ts)).data = joinSpace ts
        from rfl, cleanPipe_fixed ts hgood]

/-- C9 (witness): the amended idempotence theorem at a concrete clean string
with hyphen-free slang. -/
theorem claim_C9_witness :
    ("gak bagus bgt".data.all cleanChar = true) ∧
      ((splitWs "gak bagus bgt".data).all slangSafe = true) ∧
      clean_text (.str (clean_text (.str "gak bagus bgt") true)) true =
        clean_text (.str "gak bagus bgt") true :=
  ⟨by decide, by decide,
    claim_C9_clean_idempotent "gak bagus bgt" (by decide) (by decide)⟩

end TikTokSA
